import Mathlib

/-!
Kruskal's minimum spanning forest over a disjoint-set union.

A shallow embedding of `src/DSA/t.cpp`: the class `DSU` (constructor, `Find`
with path compression, `Union`), the procedure `MST_kruskal` and `main`.

Conventions of the embedding.

* Vertex identifiers and array indices are natural numbers; the two heap
  arrays of a `DSU` are lists.  An index outside an array has no defined
  behaviour in C++; every operation that indexes returns `none` there.  The
  tokens read by `main` are integers and are compared with `[0, V)` where
  `main` indexes with them.
* `Find` is recursive along parent links.  The embedding gives the recursion
  as many levels as the array has cells, which is enough for every chain of
  links that ends in a root; a chain that never ends (no C++ result either)
  yields `none`.
* Edge weights and the accumulated `cost` are mathematical integers.
-/

namespace Kruskal

/-! ## The class `DSU` -/

/-- The two arrays owned by a `DSU` object (`int* parent`, `int* rank`). -/
structure DSU where
  parent : List Nat
  rank : List Nat
deriving DecidableEq

/-- Constructor `DSU(int n)` (the name `DSU.DSU` would shadow the type):
`parent[i] = i` and `rank[i] = 1` for `i < n`. -/
def DSU.new (n : Nat) : DSU :=
  { parent := List.range n, rank := List.replicate n 1 }

/-- Body of `int Find(int x)` with an explicit bound on the recursion depth.
`if (x == parent[x]) return x; else return parent[x] = Find(parent[x]);` -/
def DSU.FindAux : Nat → DSU → Nat → Option (Nat × DSU)
  | 0, _, _ => none
  | fuel + 1, s, x =>
    match s.parent[x]? with
    | none => none
    | some p =>
      if x = p then some (x, s)
      else
        match DSU.FindAux fuel s p with
        | none => none
        | some (r, s1) => some (r, { s1 with parent := s1.parent.set x r })

/-- Method `int Find(int x)`: the representative and the state after path
compression. -/
def DSU.Find (s : DSU) (x : Nat) : Option (Nat × DSU) :=
  DSU.FindAux s.parent.length s x

/-- Method `void Union(int x, int y)`. -/
def DSU.Union (s : DSU) (x y : Nat) : Option DSU :=
  match s.Find x with
  | none => none
  | some (x_parent, s1) =>
    match s1.Find y with
    | none => none
    | some (y_parent, s2) =>
      if x_parent = y_parent then some s2
      else
        match s2.rank[x_parent]?, s2.rank[y_parent]?,
              s2.parent[x_parent]?, s2.parent[y_parent]? with
        | some rx, some ry, some px, some py =>
          if rx > ry then
            some { s2 with parent := s2.parent.set y_parent x_parent }
          else if px < py then
            some { s2 with parent := s2.parent.set x_parent y_parent }
          else
            some { parent := s2.parent.set x_parent y_parent,
                   rank := s2.rank.set y_parent (ry + 1) }
        | _, _, _, _ => none

/-! ## `MST_kruskal` -/

/-- An element `{w, u, v}` of the vector `edges`. -/
abbrev Edge := Int × Nat × Nat

/-- Weight `edge[0]`. -/
abbrev Edge.w (e : Edge) : Int := e.1
/-- First endpoint `edge[1]`. -/
abbrev Edge.u (e : Edge) : Nat := e.2.1
/-- Second endpoint `edge[2]`. -/
abbrev Edge.v (e : Edge) : Nat := e.2.2

/-- The adjacency structure: for each vertex the `{v, w}` entries pushed to it. -/
abbrev AdjList := List (List (Nat × Int))

/-- The order `std::sort` uses on `vector<int>` triples: lexicographic on
`(w, u, v)`. -/
def edgeLe (a b : Edge) : Prop :=
  a.1 < b.1 ∨ (a.1 = b.1 ∧ (a.2.1 < b.2.1 ∨ (a.2.1 = b.2.1 ∧ a.2.2 ≤ b.2.2)))

instance edgeLeDecidable : DecidableRel edgeLe := fun a b => by
  unfold edgeLe; exact inferInstance

/-- Lines 41-47: the flat edge list, vertex by vertex; `adjList[u]` must exist
for every `u < V`. -/
def flattenFrom (adjList : AdjList) : Nat → Nat → Option (List Edge)
  | _, 0 => some []
  | u, k + 1 =>
    match adjList[u]? with
    | none => none
    | some row =>
      match flattenFrom adjList (u + 1) k with
      | none => none
      | some rest => some (row.map (fun p => ((p.2, u, p.1) : Edge)) ++ rest)

/-- The vector `edges` before sorting. -/
def flatten (V : Nat) (adjList : AdjList) : Option (List Edge) :=
  flattenFrom adjList 0 V

/-- Line 48: `sort(edges.begin(), edges.end())`.  The order is total and
antisymmetric on triples, so the sorted vector does not depend on the
sorting algorithm. -/
def sortEdges (edges : List Edge) : List Edge :=
  List.insertionSort edgeLe edges

/-- State of the loop of lines 51-60: the `dsu`, the lines printed so far
(`u v w`, oldest first) and `cost`. -/
structure Scan where
  dsu : DSU
  lines : List (Nat × Nat × Int)
  cost : Int
deriving DecidableEq

/-- One iteration of the loop of lines 51-60.  The two calls of `Find` in the
condition are unsequenced in C++; the embedding calls `Find(u)` first.  Either
order returns the same two roots, because `Find` does not change the root of
any vertex (`DSU.Find_spec`). -/
def scanStep (st : Scan) (edge : Edge) : Option Scan :=
  let w := edge.1
  let u := edge.2.1
  let v := edge.2.2
  match st.dsu.Find u with
  | none => none
  | some (ru, d1) =>
    match d1.Find v with
    | none => none
    | some (rv, d2) =>
      if ru ≠ rv then
        match d2.Union u v with
        | none => none
        | some d3 => some { dsu := d3, lines := st.lines ++ [(u, v, w)], cost := st.cost + w }
      else some { st with dsu := d2 }

/-- The loop of lines 51-60 over the sorted edges. -/
def scan : Scan → List Edge → Option Scan
  | st, [] => some st
  | st, edge :: rest =>
    match scanStep st edge with
    | none => none
    | some st1 => scan st1 rest

/-- Procedure `MST_kruskal(V, adjList)`: the printed lines and the final value
of `cost`; `none` when some access is out of bounds. -/
def MST_kruskal (V : Nat) (adjList : AdjList) : Option (List (Nat × Nat × Int) × Int) :=
  match flatten V adjList with
  | none => none
  | some edges =>
    match scan { dsu := DSU.new V, lines := [], cost := 0 } (sortEdges edges) with
    | none => none
    | some st => some (st.lines, st.cost)

/-! ## `main` -/

/-- What a run of the program amounts to. -/
inductive Outcome where
  /-- `return 0` after printing `lines`; `cost` is the last value of the local. -/
  | finished (lines : List (Nat × Nat × Int)) (cost : Int)
  /-- The input is refused with an input-format error and nothing is printed.
  No statement of the source produces this outcome. -/
  | rejected
  /-- `adjList[u]` or `adjList[v]` of lines 70-71 is outside the vector:
  undefined behaviour while the edges are read, before `MST_kruskal` is
  entered. -/
  | undefinedWhileReading
  /-- An out-of-bounds access inside `MST_kruskal`. -/
  | undefinedInKruskal
deriving DecidableEq

/-- `adjList[i].push_back(entry)` for `i` inside the vector. -/
def pushAt (adjList : AdjList) (i : Nat) (entry : Nat × Int) : AdjList :=
  adjList.modify (fun row => row ++ [entry]) i

/-- Whether the token `x` indexes a vector of `V` cells. -/
def inRange (V : Nat) (x : Int) : Bool := decide (0 ≤ x) && decide (x < (V : Int))

/-- The loop of lines 67-72 over the `u v w` triples of the input.  Line 70
indexes `adjList[u]` and line 71 `adjList[v]`; an index outside the vector
ends the defined behaviour, so the push of line 70 has no observable effect
when `v` is outside. -/
def readEdges (V : Nat) : List (Int × Int × Int) → AdjList → Option AdjList
  | [], adjList => some adjList
  | (u, v, w) :: rest, adjList =>
    if inRange V u then
      if inRange V v then
        readEdges V rest (pushAt (pushAt adjList u.toNat (v.toNat, w)) v.toNat (u.toNat, w))
      else none
    else none

/-- Function `main` on the input `V E` followed by the `E` triples `input`. -/
def main (V : Nat) (input : List (Int × Int × Int)) : Outcome :=
  match readEdges V input (List.replicate V []) with
  | none => Outcome.undefinedWhileReading
  | some adjList =>
    match MST_kruskal V adjList with
    | none => Outcome.undefinedInKruskal
    | some (lines, cost) => Outcome.finished lines cost

/-! ## Specification vocabulary for the `DSU` -/

/-- Number of cells `n` of the arrays of `s`. -/
def DSU.size (s : DSU) : Nat := s.parent.length

/-- Vertex `r` is a root: `parent[r] == r`. -/
def DSU.isRoot (s : DSU) (r : Nat) : Prop := s.parent[r]? = some r

instance DSU.isRootDecidable (s : DSU) (r : Nat) : Decidable (s.isRoot r) := by
  unfold DSU.isRoot; exact inferInstance

/-- The parent link of `i` (an index outside the array has no link and stays
where it is). -/
def DSU.link (s : DSU) (i : Nat) : Nat := (s.parent[i]?).getD i

/-- The vertex reached from `x` by following `k` parent links. -/
def DSU.follow (s : DSU) : Nat → Nat → Nat
  | 0, x => x
  | k + 1, x => DSU.follow s k (s.link x)

/-- The forest invariant of a `DSU` with `n = s.size` cells: both arrays have
`n` cells, every `parent[i]` lies in `[0, n)`, and following parent links from
any vertex reaches a root after finitely many steps. -/
def ForestInv (s : DSU) : Prop :=
  s.rank.length = s.size ∧
  (∀ i, i < s.size → s.link i < s.size) ∧
  (∀ i, i < s.size → ∃ k, s.isRoot (s.follow k i))

/-- Vertex `r` is the root of the tree of `x`: `x` is a vertex, `r` is a root
and following parent links from `x` reaches `r`. -/
def DSU.rootOf (s : DSU) (x r : Nat) : Prop :=
  x < s.size ∧ s.isRoot r ∧ ∃ k, s.follow k x = r

/-- Vertices `a` and `b` are in the same component (their trees have the same
root). -/
def DSU.same (s : DSU) (a b : Nat) : Prop :=
  ∃ r, s.rootOf a r ∧ s.rootOf b r

/-- Executable check of the forest invariant. -/
def DSU.checkInv (s : DSU) : Bool :=
  decide (s.rank.length = s.size) &&
  (List.range s.size).all (fun i => decide (s.isRoot (s.follow s.size i)))

/-- What a call of `Find` leaves unchanged: the rank array, the number of
cells, the set of roots and the root of every vertex. -/
def DSU.sameTrees (s t : DSU) : Prop :=
  t.rank = s.rank ∧ t.size = s.size ∧ (∀ i, t.isRoot i ↔ s.isRoot i) ∧
    (∀ y r, t.rootOf y r ↔ s.rootOf y r)

/-- Number of roots, that is, of components. -/
def DSU.numRoots (s : DSU) : Nat :=
  (List.range s.size).countP (fun i => decide (s.isRoot i))

/-- The state `Union` produces from the compressed state `s2`, the two roots
and their ranks (lines 25-35). -/
def DSU.unionResult (s2 : DSU) (rx ry kx ky : Nat) : DSU :=
  if rx = ry then s2
  else if kx > ky then { s2 with parent := s2.parent.set ry rx }
  else if rx < ry then { s2 with parent := s2.parent.set rx ry }
  else { parent := s2.parent.set rx ry, rank := s2.rank.set ry (ky + 1) }

/-! ## Specification vocabulary for graphs -/

/-- Edge `e` joins `a` and `b`, in either direction (edges are undirected). -/
def Edge.joins (e : Edge) (a b : Nat) : Prop :=
  (e.u = a ∧ e.v = b) ∨ (e.u = b ∧ e.v = a)

/-- Vertices `a` and `c` are connected by a path of edges of `es`. -/
inductive Conn (es : List Edge) : Nat → Nat → Prop
  | refl (a : Nat) : Conn es a a
  | step {a b c : Nat} (e : Edge) : e ∈ es → e.joins a b → Conn es b c → Conn es a c

/-- Total weight of a list of edges. -/
def wsum (es : List Edge) : Int := (es.map Edge.w).sum

/-- The edges `es` contain no cycle, even together with the edges `base`: no
edge of `es` joins two vertices that `base` and the other edges of `es`
already connect. -/
def AcyclicOver (base es : List Edge) : Prop :=
  ∀ f rest, es.Perm (f :: rest) → ¬ Conn (base ++ rest) f.u f.v

/-- The edge list `es` is a forest (has no cycle): no edge joins two vertices
connected by the other edges. -/
def IsForest (es : List Edge) : Prop :=
  ∀ f rest, es.Perm (f :: rest) → ¬ Conn rest f.u f.v

/-- List `F` is a spanning forest of the graph with edge list `E`: a selection
of the edges of `E` (each occurrence used at most once) without a cycle that
connects exactly the vertex pairs that `E` connects. -/
def SpanningForest (E F : List Edge) : Prop :=
  F.Subperm E ∧ IsForest F ∧ ∀ a b, Conn F a b ↔ Conn E a b

/-- The greedy selection: scanning `es` and keeping an edge exactly when its
endpoints are not yet connected by `acc` and the edges kept before. -/
inductive Greedy : List Edge → List Edge → List Edge → Prop
  | nil (acc : List Edge) : Greedy acc [] []
  | skip {acc : List Edge} {e : Edge} {rest new : List Edge} :
      Conn acc e.u e.v → Greedy acc rest new → Greedy acc (e :: rest) new
  | take {acc : List Edge} {e : Edge} {rest new : List Edge} :
      ¬ Conn acc e.u e.v → Greedy (acc ++ [e]) rest new → Greedy acc (e :: rest) (e :: new)

/-- The line `u v w` printed for an accepted edge `{w, u, v}`. -/
def Edge.line (e : Edge) : Nat × Nat × Int := (e.u, e.v, e.w)

/-! ## The input graph of `MST_kruskal` -/

/-- The edges `{w, u, v}` contributed by row `u` of the adjacency structure. -/
def rowEdges (adjList : AdjList) (u : Nat) : List Edge :=
  (adjList.getD u []).map (fun p => ((p.2, u, p.1) : Edge))

/-- The edge list of the input graph of `MST_kruskal(V, adjList)`: one edge
`{w, u, v}` for every entry `{v, w}` of row `u`, for `u < V`. -/
def inputEdges (V : Nat) (adjList : AdjList) : List Edge :=
  (List.range V).flatMap (rowEdges adjList)

/-- A valid input of `MST_kruskal`: the rows `0 .. V-1` exist and every
neighbour recorded in them lies in `[0, V)`. -/
def ValidAdj (V : Nat) (adjList : AdjList) : Prop :=
  V ≤ adjList.length ∧ ∀ u, u < V → ∀ p ∈ adjList.getD u [], p.1 < V

instance validAdjDecidable (V : Nat) (adjList : AdjList) : Decidable (ValidAdj V adjList) := by
  unfold ValidAdj; exact inferInstance

/-! ## The order of the sort is total and transitive -/

instance edgeLeTotal : IsTotal Edge edgeLe :=
  ⟨fun a b => by unfold edgeLe; omega⟩

instance edgeLeTrans : IsTrans Edge edgeLe :=
  ⟨fun a b c h h' => by unfold edgeLe at *; omega⟩

/-! ## Well-formed input of `main` -/

/-- The tokens `u v w` of well-formed edges. -/
def castInput (es : List (Nat × Nat × Int)) : List (Int × Int × Int) :=
  es.map (fun t => ((t.1 : Int), (t.2.1 : Int), t.2.2))

/-- The graph read by `main`: every input edge `u v w`, recorded once per
endpoint as lines 70-71 do. -/
def graphOf (es : List (Nat × Nat × Int)) : List Edge :=
  es.flatMap (fun t => [((t.2.2, t.1, t.2.1) : Edge), (t.2.2, t.2.1, t.1)])

/-! ## Specification vocabulary for paths and call sequences -/

/-- Vertex `i` lies on the parent path from `x` below the root: it is reached
from `x` by following parent links and it is not a root. -/
def DSU.onPath (s : DSU) (x i : Nat) : Prop :=
  ∃ j, s.follow j x = i ∧ ¬ s.isRoot i

/-- A call on a `DSU` object: `Find(x)` or `Union(x, y)`. -/
inductive Op where
  | find (x : Nat)
  | union (x y : Nat)
deriving DecidableEq

/-- The arguments of the call lie in `[0, n)`. -/
def Op.valid (n : Nat) : Op → Prop
  | Op.find x => x < n
  | Op.union x y => x < n ∧ y < n

/-- The state after one call (the value returned by `Find` is dropped). -/
def DSU.call (s : DSU) : Op → Option DSU
  | Op.find x =>
    match s.Find x with
    | none => none
    | some (_, t) => some t
  | Op.union x y => s.Union x y

/-- The state after a sequence of calls, first call first. -/
def DSU.run : DSU → List Op → Option DSU
  | s, [] => some s
  | s, op :: rest =>
    match s.call op with
    | none => none
    | some t => DSU.run t rest

instance Op.validDecidable (n : Nat) (op : Op) : Decidable (op.valid n) := by
  cases op <;> unfold Op.valid <;> exact inferInstance

/-! ## Edge lists that denote the same undirected graph -/

/-- Triple `b` is the input edge `a`, written as it is or with the two
endpoints exchanged. -/
def sameUndirected (a b : Nat × Nat × Int) : Prop :=
  b = a ∨ b = (a.2.1, a.1, a.2.2)

/-- The edge list `es2` is `es1` up to exchanging the endpoints of some edges
and reordering the edges. -/
def SameGraph (es1 es2 : List (Nat × Nat × Int)) : Prop :=
  ∃ mid, List.Forall₂ sameUndirected es1 mid ∧ mid.Perm es2

instance edgeLeAntisymm : IsAntisymm Edge edgeLe :=
  ⟨fun a b h h' => by
    unfold edgeLe at h h'
    apply Prod.ext
    · show a.1 = b.1
      omega
    · apply Prod.ext
      · show a.2.1 = b.2.1
        omega
      · show a.2.2 = b.2.2
        omega⟩

/-! ## Basic facts on links and roots -/

theorem DSU.isRoot_lt {s : DSU} {r : Nat} (h : s.isRoot r) : r < s.size := by
  unfold DSU.isRoot at h
  by_contra hlt
  rw [List.getElem?_eq_none (by unfold DSU.size at hlt; omega)] at h
  cases h

theorem DSU.link_of_isRoot {s : DSU} {r : Nat} (h : s.isRoot r) : s.link r = r := by
  unfold DSU.isRoot at h
  simp [DSU.link, h]

theorem DSU.link_of_ge {s : DSU} {i : Nat} (h : s.size ≤ i) : s.link i = i := by
  simp [DSU.link, List.getElem?_eq_none (show s.parent.length ≤ i from h)]

theorem DSU.parent_eq_link {s : DSU} {i : Nat} (h : i < s.size) :
    s.parent[i]? = some (s.link i) := by
  unfold DSU.size at h
  simp [DSU.link, List.getElem?_eq_getElem h]

theorem DSU.isRoot_iff_link {s : DSU} {i : Nat} (h : i < s.size) :
    s.isRoot i ↔ s.link i = i := by
  unfold DSU.isRoot
  rw [DSU.parent_eq_link h]
  simp

theorem DSU.follow_fixed {s : DSU} {r : Nat} (h : s.link r = r) (k : Nat) :
    s.follow k r = r := by
  induction k with
  | zero => rfl
  | succ k ih => simp [DSU.follow, h, ih]

theorem DSU.follow_add (s : DSU) (a b x : Nat) :
    s.follow (a + b) x = s.follow b (s.follow a x) := by
  induction a generalizing x with
  | zero => simp [DSU.follow]
  | succ a ih =>
    have : a + 1 + b = (a + b) + 1 := by omega
    rw [this]
    simp [DSU.follow, ih]

theorem DSU.follow_succ_right (s : DSU) (k x : Nat) :
    s.follow (k + 1) x = s.link (s.follow k x) := by
  rw [DSU.follow_add]
  rfl

/-- A vertex from which a root is reached lies inside the array. -/
theorem DSU.lt_of_follow_isRoot {s : DSU} {k x : Nat} (h : s.isRoot (s.follow k x)) :
    x < s.size := by
  by_contra hlt
  have hfix : s.link x = x := DSU.link_of_ge (by omega)
  rw [DSU.follow_fixed hfix] at h
  exact hlt (DSU.isRoot_lt h)

theorem DSU.rootOf_self {s : DSU} {r : Nat} (h : s.isRoot r) : s.rootOf r r :=
  ⟨DSU.isRoot_lt h, h, 0, rfl⟩

theorem DSU.rootOf_isRoot {s : DSU} {x r : Nat} (h : s.rootOf x r) : s.isRoot r := h.2.1

theorem DSU.rootOf_lt {s : DSU} {x r : Nat} (h : s.rootOf x r) : x < s.size := h.1

/-- The root of a tree is unique. -/
theorem DSU.rootOf_unique {s : DSU} {x r r' : Nat} (h : s.rootOf x r) (h' : s.rootOf x r') :
    r = r' := by
  obtain ⟨_, hr, k, hk⟩ := h
  obtain ⟨_, hr', k', hk'⟩ := h'
  rcases Nat.le_total k k' with hle | hle
  · obtain ⟨d, rfl⟩ := Nat.exists_eq_add_of_le hle
    rw [DSU.follow_add, hk, DSU.follow_fixed (DSU.link_of_isRoot hr)] at hk'
    exact hk'
  · obtain ⟨d, rfl⟩ := Nat.exists_eq_add_of_le hle
    rw [DSU.follow_add, hk', DSU.follow_fixed (DSU.link_of_isRoot hr')] at hk
    exact hk.symm

theorem DSU.rootOf_of_isRoot {s : DSU} {x r : Nat} (hx : s.isRoot x) (h : s.rootOf x r) :
    r = x :=
  DSU.rootOf_unique h (DSU.rootOf_self hx)

/-- The root of `x` is the root of its parent. -/
theorem DSU.rootOf_link {s : DSU} {x r : Nat} (h : s.rootOf x r) : s.rootOf (s.link x) r := by
  obtain ⟨hx, hr, k, hk⟩ := h
  cases k with
  | zero =>
    simp only [DSU.follow] at hk
    subst hk
    rw [DSU.link_of_isRoot hr]
    exact DSU.rootOf_self hr
  | succ k =>
    simp only [DSU.follow] at hk
    refine ⟨?_, hr, k, hk⟩
    apply DSU.lt_of_follow_isRoot (k := k)
    rw [hk]
    exact hr

theorem DSU.rootOf_of_link {s : DSU} {x r : Nat} (hx : x < s.size)
    (h : s.rootOf (s.link x) r) : s.rootOf x r := by
  obtain ⟨_, hr, k, hk⟩ := h
  exact ⟨hx, hr, k + 1, hk⟩

theorem DSU.link_lt_of_rootOf {s : DSU} {x r : Nat} (h : s.rootOf x r) : s.link x < s.size :=
  (DSU.rootOf_link h).1

/-- The forest invariant, said with `rootOf`: every vertex has a root. -/
theorem forestInv_iff (s : DSU) :
    ForestInv s ↔ s.rank.length = s.size ∧ ∀ i, i < s.size → ∃ r, s.rootOf i r := by
  constructor
  · rintro ⟨h1, _, h3⟩
    refine ⟨h1, fun i hi => ?_⟩
    obtain ⟨k, hk⟩ := h3 i hi
    exact ⟨_, hi, hk, k, rfl⟩
  · rintro ⟨h1, h2⟩
    refine ⟨h1, fun i hi => ?_, fun i hi => ?_⟩
    · obtain ⟨r, hr⟩ := h2 i hi
      exact DSU.link_lt_of_rootOf hr
    · obtain ⟨r, _, hr, k, hk⟩ := h2 i hi
      exact ⟨k, by rw [hk]; exact hr⟩

theorem ForestInv.exists_rootOf {s : DSU} (h : ForestInv s) {i : Nat} (hi : i < s.size) :
    ∃ r, s.rootOf i r :=
  ((forestInv_iff s).1 h).2 i hi

theorem DSU.same_refl {s : DSU} (h : ForestInv s) {a : Nat} (ha : a < s.size) : s.same a a := by
  obtain ⟨r, hr⟩ := h.exists_rootOf ha
  exact ⟨r, hr, hr⟩

theorem DSU.same_symm {s : DSU} {a b : Nat} (h : s.same a b) : s.same b a := by
  obtain ⟨r, h1, h2⟩ := h
  exact ⟨r, h2, h1⟩

theorem DSU.same_trans {s : DSU} {a b c : Nat} (h : s.same a b) (h' : s.same b c) :
    s.same a c := by
  obtain ⟨r, h1, h2⟩ := h
  obtain ⟨r', h3, h4⟩ := h'
  have := DSU.rootOf_unique h2 h3
  subst this
  exact ⟨r, h1, h4⟩

/-! ## Depth of a tree is below the number of cells -/

/-- A root that is reached at all is reached in fewer than `n` links: the
vertices met before the first root are pairwise different. -/
theorem DSU.exists_follow_lt {s : DSU} {x r : Nat} (h : s.rootOf x r) :
    ∃ k, k < s.size ∧ s.follow k x = r := by
  obtain ⟨hx, hr, k, hk⟩ := h
  have hex : ∃ j, s.isRoot (s.follow j x) := ⟨k, by rw [hk]; exact hr⟩
  have hmin : ∀ m, m < Nat.find hex → ¬ s.isRoot (s.follow m x) :=
    fun m hm => Nat.find_min hex hm
  have hk0 : s.isRoot (s.follow (Nat.find hex) x) := Nat.find_spec hex
  generalize Nat.find hex = k0 at hmin hk0
  have hrange : ∀ j, j ≤ k0 → s.follow j x < s.size := by
    intro j hj
    apply DSU.lt_of_follow_isRoot (k := k0 - j)
    rw [← DSU.follow_add]
    have : j + (k0 - j) = k0 := by omega
    rw [this]
    exact hk0
  have hinj : ∀ i j, i < j → j ≤ k0 → s.follow i x ≠ s.follow j x := by
    intro i j hij hj heq
    apply hmin (i + (k0 - j)) (by omega)
    rw [DSU.follow_add, heq, ← DSU.follow_add]
    have : j + (k0 - j) = k0 := by omega
    rw [this]
    exact hk0
  have hcard : k0 + 1 ≤ s.size := by
    have hf : Function.Injective
        (fun j : Fin (k0 + 1) => (⟨s.follow j.1 x, hrange j.1 (by omega)⟩ : Fin s.size)) := by
      intro i j hij
      have hval : s.follow i.1 x = s.follow j.1 x := by
        simpa using congrArg Fin.val hij
      apply Fin.ext
      rcases Nat.lt_trichotomy i.1 j.1 with hlt | heq | hgt
      · exact absurd hval (hinj _ _ hlt (by omega))
      · exact heq
      · exact absurd hval.symm (hinj _ _ hgt (by omega))
    simpa using Fintype.card_le_of_injective _ hf
  refine ⟨k0, by omega, ?_⟩
  exact DSU.rootOf_unique ⟨hx, hk0, k0, rfl⟩ ⟨hx, hr, k, hk⟩

/-! ## Writing one parent cell -/

theorem DSU.size_of_set {s t : DSU} {x r : Nat} (ht : t.parent = s.parent.set x r) :
    t.size = s.size := by
  simp [DSU.size, ht]

theorem DSU.link_set_self {s t : DSU} {x r : Nat} (ht : t.parent = s.parent.set x r)
    (hx : x < s.size) : t.link x = r := by
  unfold DSU.size at hx
  simp [DSU.link, ht, List.getElem?_set, hx]

theorem DSU.link_set_ne {s t : DSU} {x r y : Nat} (ht : t.parent = s.parent.set x r)
    (hy : y ≠ x) : t.link y = s.link y := by
  simp [DSU.link, ht, List.getElem?_set_ne (Ne.symm hy)]

theorem DSU.isRoot_set_ne {s t : DSU} {x r y : Nat} (ht : t.parent = s.parent.set x r)
    (hy : y ≠ x) : t.isRoot y ↔ s.isRoot y := by
  simp [DSU.isRoot, ht, List.getElem?_set_ne (Ne.symm hy)]

/-- Path compression of one vertex: pointing a non-root `x` at the root of its
own tree changes neither the roots nor the root of any vertex. -/
theorem DSU.compress_one {s t : DSU} {x r : Nat} (hx : s.rootOf x r) (hnr : ¬ s.isRoot x)
    (ht : t.parent = s.parent.set x r) :
    (∀ i, t.isRoot i ↔ s.isRoot i) ∧ (∀ y r', t.rootOf y r' ↔ s.rootOf y r') := by
  have hsz : t.size = s.size := DSU.size_of_set ht
  have hxr : r ≠ x := fun h => hnr (h ▸ hx.2.1)
  have hroots : ∀ i, t.isRoot i ↔ s.isRoot i := by
    intro i
    by_cases hi : i = x
    · subst hi
      constructor
      · intro h
        have h1 := DSU.link_of_isRoot h
        rw [DSU.link_set_self ht hx.1] at h1
        exact absurd h1 hxr
      · intro h
        exact absurd h hnr
    · exact DSU.isRoot_set_ne ht hi
  refine ⟨hroots, fun y r' => ⟨?_, ?_⟩⟩
  · rintro ⟨hy, hr', k, hk⟩
    induction k generalizing y with
    | zero =>
      simp only [DSU.follow] at hk
      subst hk
      exact DSU.rootOf_self ((hroots _).1 hr')
    | succ k ih =>
      simp only [DSU.follow] at hk
      by_cases hyx : y = x
      · subst hyx
        rw [DSU.link_set_self ht hx.1,
          DSU.follow_fixed (DSU.link_of_isRoot ((hroots r).2 hx.2.1))] at hk
        subst hk
        exact hx
      · rw [DSU.link_set_ne ht hyx] at hk
        have hq : t.link y < t.size := by
          apply DSU.lt_of_follow_isRoot (k := k)
          rw [DSU.link_set_ne ht hyx, hk]
          exact hr'
        rw [DSU.link_set_ne ht hyx] at hq
        exact DSU.rootOf_of_link (hsz ▸ hy) (ih _ hq hk)
  · rintro ⟨hy, hr', k, hk⟩
    induction k generalizing y with
    | zero =>
      simp only [DSU.follow] at hk
      subst hk
      exact DSU.rootOf_self ((hroots _).2 hr')
    | succ k ih =>
      simp only [DSU.follow] at hk
      by_cases hyx : y = x
      · subst hyx
        have h1 : s.rootOf (s.link y) r' := ⟨DSU.link_lt_of_rootOf hx, hr', k, hk⟩
        have h2 := DSU.rootOf_unique (DSU.rootOf_of_link hx.1 h1) hx
        subst h2
        exact ⟨hsz ▸ hx.1, (hroots _).2 hr', 1, by
          simp only [DSU.follow]
          exact DSU.link_set_self ht hx.1⟩
      · have hq : s.link y < s.size := by
          apply DSU.lt_of_follow_isRoot (k := k)
          rw [hk]
          exact hr'
        have h1 := ih _ hq hk
        rw [← DSU.link_set_ne ht hyx] at h1
        exact DSU.rootOf_of_link (hsz ▸ hy) h1

/-! ## `Find` -/

theorem DSU.sameTrees_refl (s : DSU) : s.sameTrees s :=
  ⟨rfl, rfl, fun _ => Iff.rfl, fun _ _ => Iff.rfl⟩

theorem DSU.sameTrees_trans {s t u : DSU} (h : s.sameTrees t) (h' : t.sameTrees u) :
    s.sameTrees u :=
  ⟨h'.1.trans h.1, h'.2.1.trans h.2.1, fun i => (h'.2.2.1 i).trans (h.2.2.1 i),
    fun y r => (h'.2.2.2 y r).trans (h.2.2.2 y r)⟩

theorem DSU.sameTrees_same {s t : DSU} (h : s.sameTrees t) (a b : Nat) :
    t.same a b ↔ s.same a b := by
  unfold DSU.same
  constructor
  · rintro ⟨r, h1, h2⟩
    exact ⟨r, (h.2.2.2 _ _).1 h1, (h.2.2.2 _ _).1 h2⟩
  · rintro ⟨r, h1, h2⟩
    exact ⟨r, (h.2.2.2 _ _).2 h1, (h.2.2.2 _ _).2 h2⟩

theorem DSU.sameTrees_inv {s t : DSU} (h : s.sameTrees t) (hs : ForestInv s) : ForestInv t := by
  rw [forestInv_iff] at hs ⊢
  refine ⟨by rw [h.1, h.2.1]; exact hs.1, fun i hi => ?_⟩
  obtain ⟨r, hr⟩ := hs.2 i (h.2.1 ▸ hi)
  exact ⟨r, (h.2.2.2 _ _).2 hr⟩

/-- With more recursion levels than links up to the root, `FindAux` returns the
root and a state with the same trees. -/
theorem DSU.FindAux_spec (s : DSU) (k : Nat) : ∀ (x fuel : Nat),
    s.isRoot (s.follow k x) → k < fuel →
    ∃ t, DSU.FindAux fuel s x = some (s.follow k x, t) ∧ s.sameTrees t := by
  induction k with
  | zero =>
    intro x fuel hroot hfuel
    obtain ⟨f, rfl⟩ : ∃ f, fuel = f + 1 := ⟨fuel - 1, by omega⟩
    simp only [DSU.follow] at hroot ⊢
    refine ⟨s, ?_, DSU.sameTrees_refl s⟩
    unfold DSU.isRoot at hroot
    simp [DSU.FindAux, hroot]
  | succ k ih =>
    intro x fuel hroot hfuel
    obtain ⟨f, rfl⟩ : ∃ f, fuel = f + 1 := ⟨fuel - 1, by omega⟩
    have hx : x < s.size := DSU.lt_of_follow_isRoot hroot
    by_cases hxr : s.isRoot x
    · have hfix : s.follow (k + 1) x = x := DSU.follow_fixed (DSU.link_of_isRoot hxr) _
      rw [hfix]
      refine ⟨s, ?_, DSU.sameTrees_refl s⟩
      unfold DSU.isRoot at hxr
      simp [DSU.FindAux, hxr]
    · simp only [DSU.follow] at hroot ⊢
      obtain ⟨t1, hfind, htrees⟩ := ih (s.link x) f hroot (by omega)
      have hne : x ≠ s.link x := fun h => hxr ((DSU.isRoot_iff_link hx).2 h.symm)
      have hroot1 : t1.rootOf x (s.follow k (s.link x)) :=
        (htrees.2.2.2 _ _).2 ⟨hx, hroot, k + 1, rfl⟩
      have hnr1 : ¬ t1.isRoot x := fun h => hxr ((htrees.2.2.1 _).1 h)
      have hc := @DSU.compress_one t1 ⟨t1.parent.set x (s.follow k (s.link x)), t1.rank⟩
        x _ hroot1 hnr1 rfl
      refine ⟨⟨t1.parent.set x (s.follow k (s.link x)), t1.rank⟩, ?_, ?_⟩
      · simp [DSU.FindAux, DSU.parent_eq_link hx, hne, hfind]
      · refine DSU.sameTrees_trans htrees ⟨rfl, ?_, hc.1, hc.2⟩
        simp [DSU.size]

/-- `Find(x)` on a state with the forest invariant returns the root of `x`
and leaves the trees as they are, up to path compression. -/
theorem DSU.Find_spec {s : DSU} (hs : ForestInv s) {x : Nat} (hx : x < s.size) :
    ∃ r t, s.Find x = some (r, t) ∧ s.rootOf x r ∧ s.sameTrees t ∧ ForestInv t := by
  obtain ⟨r, hr⟩ := hs.exists_rootOf hx
  obtain ⟨k, hk, hkr⟩ := DSU.exists_follow_lt hr
  obtain ⟨t, hfind, htrees⟩ := DSU.FindAux_spec s k x s.parent.length
    (by rw [hkr]; exact hr.2.1) hk
  rw [hkr] at hfind
  exact ⟨r, t, hfind, hr, htrees, DSU.sameTrees_inv htrees hs⟩

/-! ## Hanging one root under another -/

/-- Hanging the root `a` under a different root `b`: `a` stops being a root,
and the vertices whose root was `a` now have root `b`. -/
theorem DSU.attach {s t : DSU} (hs : ForestInv s) {a b : Nat} (ha : s.isRoot a)
    (hb : s.isRoot b) (hab : a ≠ b) (ht : t.parent = s.parent.set a b) :
    (∀ i, t.isRoot i ↔ (s.isRoot i ∧ i ≠ a)) ∧
    (∀ y r, t.rootOf y r ↔ ∃ r0, s.rootOf y r0 ∧ r = if r0 = a then b else r0) := by
  have hsz : t.size = s.size := DSU.size_of_set ht
  have ha_lt : a < s.size := DSU.isRoot_lt ha
  have hroots : ∀ i, t.isRoot i ↔ (s.isRoot i ∧ i ≠ a) := by
    intro i
    by_cases hi : i = a
    · subst hi
      constructor
      · intro h
        have h1 := DSU.link_of_isRoot h
        rw [DSU.link_set_self ht ha_lt] at h1
        exact absurd h1.symm hab
      · rintro ⟨_, h⟩
        exact absurd rfl h
    · rw [DSU.isRoot_set_ne ht hi]
      simp [hi]
  have hfwd : ∀ k y r0, y < s.size → s.isRoot r0 → s.follow k y = r0 →
      t.rootOf y (if r0 = a then b else r0) := by
    intro k
    induction k with
    | zero =>
      intro y r0 hy hr0 hk
      simp only [DSU.follow] at hk
      subst hk
      by_cases hya : y = a
      · subst hya
        simp only [if_true]
        exact ⟨hsz ▸ hy, (hroots b).2 ⟨hb, Ne.symm hab⟩, 1, by
          simp only [DSU.follow]
          exact DSU.link_set_self ht ha_lt⟩
      · simp only [hya, if_false]
        exact DSU.rootOf_self ((hroots y).2 ⟨hr0, hya⟩)
    | succ k ih =>
      intro y r0 hy hr0 hk
      by_cases hyr : s.isRoot y
      · have : s.follow (k + 1) y = y := DSU.follow_fixed (DSU.link_of_isRoot hyr) _
        rw [this] at hk
        subst hk
        by_cases hya : y = a
        · subst hya
          simp only [if_true]
          exact ⟨hsz ▸ hy, (hroots b).2 ⟨hb, Ne.symm hab⟩, 1, by
            simp only [DSU.follow]
            exact DSU.link_set_self ht ha_lt⟩
        · simp only [hya, if_false]
          exact DSU.rootOf_self ((hroots y).2 ⟨hyr, hya⟩)
      · have hya : y ≠ a := fun h => hyr (h ▸ ha)
        simp only [DSU.follow] at hk
        have hq : s.link y < s.size := by
          apply DSU.lt_of_follow_isRoot (k := k)
          rw [hk]
          exact hr0
        have h1 := ih (s.link y) r0 hq hr0 hk
        rw [← DSU.link_set_ne ht hya] at h1
        exact DSU.rootOf_of_link (hsz ▸ hy) h1
  refine ⟨hroots, fun y r => ⟨?_, ?_⟩⟩
  · intro h
    obtain ⟨r0, hr0⟩ := hs.exists_rootOf (hsz ▸ h.1)
    refine ⟨r0, hr0, ?_⟩
    exact DSU.rootOf_unique h (by
      obtain ⟨hy, hroot, k, hk⟩ := hr0
      exact hfwd k y r0 hy hroot hk)
  · rintro ⟨r0, ⟨hy, hroot, k, hk⟩, rfl⟩
    exact hfwd k y r0 hy hroot hk

/-- Hanging root `a` under root `b` merges exactly the two trees. -/
theorem DSU.attach_same {s t : DSU} (hs : ForestInv s) {a b : Nat} (ha : s.isRoot a)
    (hb : s.isRoot b) (hab : a ≠ b) (ht : t.parent = s.parent.set a b) (p q : Nat) :
    t.same p q ↔
      (s.same p q ∨ (s.rootOf p a ∧ s.rootOf q b) ∨ (s.rootOf p b ∧ s.rootOf q a)) := by
  have hatt := (DSU.attach hs ha hb hab ht).2
  constructor
  · rintro ⟨r, hp, hq⟩
    obtain ⟨rp, hrp, h1⟩ := (hatt p r).1 hp
    obtain ⟨rq, hrq, h2⟩ := (hatt q r).1 hq
    by_cases hpa : rp = a <;> by_cases hqa : rq = a
    · subst hpa; subst hqa
      exact Or.inl ⟨_, hrp, hrq⟩
    · subst hpa
      simp only [if_true] at h1
      simp only [hqa, if_false] at h2
      rw [h1] at h2; subst h2
      exact Or.inr (Or.inl ⟨hrp, hrq⟩)
    · subst hqa
      simp only [if_true] at h2
      simp only [hpa, if_false] at h1
      rw [h2] at h1; subst h1
      exact Or.inr (Or.inr ⟨hrp, hrq⟩)
    · simp only [hpa, if_false] at h1
      simp only [hqa, if_false] at h2
      rw [h1] at h2; subst h2
      exact Or.inl ⟨_, hrp, hrq⟩
  · rintro (⟨r, hp, hq⟩ | ⟨hp, hq⟩ | ⟨hp, hq⟩)
    · exact ⟨_, (hatt p _).2 ⟨r, hp, rfl⟩, (hatt q _).2 ⟨r, hq, rfl⟩⟩
    · refine ⟨b, (hatt p _).2 ⟨a, hp, by simp⟩, (hatt q _).2 ⟨b, hq, ?_⟩⟩
      simp [Ne.symm hab]
    · refine ⟨b, (hatt p _).2 ⟨b, hp, ?_⟩, (hatt q _).2 ⟨a, hq, by simp⟩⟩
      simp [Ne.symm hab]

theorem DSU.attach_inv {s t : DSU} (hs : ForestInv s) {a b : Nat} (ha : s.isRoot a)
    (hb : s.isRoot b) (hab : a ≠ b) (ht : t.parent = s.parent.set a b)
    (hrank : t.rank.length = s.rank.length) : ForestInv t := by
  have hsz : t.size = s.size := DSU.size_of_set ht
  rw [forestInv_iff]
  refine ⟨by rw [hrank, hsz]; exact hs.1, fun i hi => ?_⟩
  obtain ⟨r0, hr0⟩ := hs.exists_rootOf (hsz ▸ hi)
  exact ⟨_, ((DSU.attach hs ha hb hab ht).2 i _).2 ⟨r0, hr0, rfl⟩⟩

/-! ## Counting roots -/

theorem countP_remove_one (p q : Nat → Bool) (a : Nat) (hpa : p a = true)
    (hq : ∀ i, q i = (p i && decide (i ≠ a))) :
    ∀ l : List Nat, l.Nodup → a ∈ l → l.countP q + 1 = l.countP p := by
  intro l
  induction l with
  | nil => intro _ h; cases h
  | cons h tl ih =>
    intro hnd hmem
    rw [List.nodup_cons] at hnd
    by_cases hha : h = a
    · subst hha
      have hqh : q h = false := by simp [hq]
      have hcongr : tl.countP q = tl.countP p := by
        apply List.countP_congr
        intro i hi
        have : i ≠ h := fun e => hnd.1 (e ▸ hi)
        simp [hq, this]
      simp [List.countP_cons, hqh, hpa, hcongr]
    · have hmem' : a ∈ tl := by
        rcases List.mem_cons.1 hmem with e | e
        · exact absurd e.symm hha
        · exact e
      have := ih hnd.2 hmem'
      have hqh : q h = p h := by simp [hq, hha]
      simp only [List.countP_cons, hqh]
      omega

theorem DSU.numRoots_sameTrees {s t : DSU} (h : s.sameTrees t) : t.numRoots = s.numRoots := by
  unfold DSU.numRoots
  rw [h.2.1]
  apply List.countP_congr
  intro i _
  simp [h.2.2.1 i]

theorem DSU.numRoots_attach {s t : DSU} (hs : ForestInv s) {a b : Nat} (ha : s.isRoot a)
    (hb : s.isRoot b) (hab : a ≠ b) (ht : t.parent = s.parent.set a b) :
    t.numRoots + 1 = s.numRoots := by
  unfold DSU.numRoots
  rw [DSU.size_of_set ht]
  apply countP_remove_one _ _ a (by simpa using ha)
  · intro i
    have := (DSU.attach hs ha hb hab ht).1 i
    rw [Bool.eq_iff_iff]
    simp [this]
  · exact List.nodup_range _
  · exact List.mem_range.2 (DSU.isRoot_lt ha)

/-- When all vertices are in one component there is exactly one root. -/
theorem DSU.numRoots_eq_one {s : DSU} (hn : 0 < s.size)
    (hall : ∀ a b, a < s.size → b < s.size → s.same a b) : s.numRoots = 1 := by
  obtain ⟨r, hr, _⟩ := hall 0 0 hn hn
  have hroot : s.isRoot r := hr.2.1
  have hiff : ∀ i, s.isRoot i ↔ i = r := by
    intro i
    constructor
    · intro hi
      obtain ⟨r', h1, h2⟩ := hall i r (DSU.isRoot_lt hi) (DSU.isRoot_lt hroot)
      rw [DSU.rootOf_of_isRoot hi h1] at h2
      exact (DSU.rootOf_of_isRoot hroot h2)
    · rintro rfl
      exact hroot
  unfold DSU.numRoots
  have : (List.range s.size).countP (fun i => decide (s.isRoot i))
      = (List.range s.size).count r := by
    unfold List.count
    apply List.countP_congr
    intro i _
    simp [hiff i]
  rw [this]
  exact List.count_eq_one_of_mem (List.nodup_range _) (List.mem_range.2 (DSU.isRoot_lt hroot))

/-! ## `Union` -/

/-- `Union(x, y)` step by step: both roots are found, the trees are unchanged
by the two calls of `Find`, and the result is `unionResult`. -/
theorem DSU.Union_eq {s : DSU} (hs : ForestInv s) {x y : Nat} (hx : x < s.size)
    (hy : y < s.size) :
    ∃ rx ry s2 kx ky, s.rootOf x rx ∧ s.rootOf y ry ∧ s.sameTrees s2 ∧ ForestInv s2 ∧
      s.rank[rx]? = some kx ∧ s.rank[ry]? = some ky ∧
      s.Union x y = some (DSU.unionResult s2 rx ry kx ky) := by
  obtain ⟨rx, s1, hf1, hrx, ht1, hi1⟩ := DSU.Find_spec hs hx
  obtain ⟨ry, s2, hf2, hry1, ht2, hi2⟩ := DSU.Find_spec hi1 (ht1.2.1 ▸ hy)
  have hry : s.rootOf y ry := (ht1.2.2.2 _ _).1 hry1
  have ht : s.sameTrees s2 := DSU.sameTrees_trans ht1 ht2
  have hrxlt : rx < s.rank.length := by rw [hs.1]; exact DSU.isRoot_lt hrx.2.1
  have hrylt : ry < s.rank.length := by rw [hs.1]; exact DSU.isRoot_lt hry.2.1
  refine ⟨rx, ry, s2, s.rank[rx], s.rank[ry], hrx, hry, ht, hi2,
    List.getElem?_eq_getElem hrxlt, List.getElem?_eq_getElem hrylt, ?_⟩
  have hpx : s2.parent[rx]? = some rx := (ht.2.2.1 rx).2 hrx.2.1
  have hpy : s2.parent[ry]? = some ry := (ht.2.2.1 ry).2 hry.2.1
  have hkx : s2.rank[rx]? = some s.rank[rx] := by
    rw [ht.1]; exact List.getElem?_eq_getElem hrxlt
  have hky : s2.rank[ry]? = some s.rank[ry] := by
    rw [ht.1]; exact List.getElem?_eq_getElem hrylt
  unfold DSU.Union DSU.unionResult
  simp only [hf1, hf2, hpx, hpy, hkx, hky]
  by_cases h1 : rx = ry
  · simp [h1]
  · by_cases h2 : s.rank[rx] > s.rank[ry]
    · simp [h1, h2]
    · by_cases h3 : rx < ry
      · simp [h1, h2, h3]
      · simp [h1, h2, h3]

/-- `Union(x, y)` on a state with the forest invariant: it returns, keeps the
invariant and the number of cells, merges exactly the components of `x` and
`y`, and removes one root unless `x` and `y` were already together. -/
theorem DSU.Union_spec {s : DSU} (hs : ForestInv s) {x y : Nat} (hx : x < s.size)
    (hy : y < s.size) :
    ∃ t, s.Union x y = some t ∧ ForestInv t ∧ t.size = s.size ∧
      (∀ a b, t.same a b ↔
        (s.same a b ∨ (s.same a x ∧ s.same y b) ∨ (s.same a y ∧ s.same x b))) ∧
      (s.same x y → t.numRoots = s.numRoots) ∧
      (¬ s.same x y → t.numRoots + 1 = s.numRoots) := by
  obtain ⟨rx, ry, s2, kx, ky, hrx, hry, ht, hi2, _, _, hU⟩ := DSU.Union_eq hs hx hy
  have hrx2 : s2.isRoot rx := (ht.2.2.1 rx).2 hrx.2.1
  have hry2 : s2.isRoot ry := (ht.2.2.1 ry).2 hry.2.1
  have hsx : ∀ a, s.rootOf a rx ↔ s.same a x := fun a =>
    ⟨fun h => ⟨rx, h, hrx⟩, fun ⟨r, h1, h2⟩ => DSU.rootOf_unique hrx h2 ▸ h1⟩
  have hsy : ∀ a, s.rootOf a ry ↔ s.same a y := fun a =>
    ⟨fun h => ⟨ry, h, hry⟩, fun ⟨r, h1, h2⟩ => DSU.rootOf_unique hry h2 ▸ h1⟩
  refine ⟨_, hU, ?_⟩
  by_cases h1 : rx = ry
  · subst h1
    have hxy : s.same x y := ⟨rx, hrx, hry⟩
    have hres : DSU.unionResult s2 rx rx kx ky = s2 := by simp [DSU.unionResult]
    rw [hres]
    refine ⟨hi2, ht.2.1, fun a b => ?_, fun _ => DSU.numRoots_sameTrees ht,
      fun h => absurd hxy h⟩
    rw [DSU.sameTrees_same ht]
    constructor
    · exact Or.inl
    · rintro (h | ⟨h, h'⟩ | ⟨h, h'⟩)
      · exact h
      · exact DSU.same_trans h (DSU.same_trans hxy h')
      · exact DSU.same_trans h (DSU.same_trans (DSU.same_symm hxy) h')
  · have hxy : ¬ s.same x y := by
      rintro ⟨r, h, h'⟩
      exact h1 ((DSU.rootOf_unique hrx h).trans (DSU.rootOf_unique h' hry))
    have key : ∀ (t : DSU) (a b : Nat), s2.isRoot a → s2.isRoot b → a ≠ b →
        ((a = rx ∧ b = ry) ∨ (a = ry ∧ b = rx)) → t.parent = s2.parent.set a b →
        t.rank.length = s2.rank.length →
        ForestInv t ∧ t.size = s.size ∧
        (∀ p q, t.same p q ↔
          (s.same p q ∨ (s.same p x ∧ s.same y q) ∨ (s.same p y ∧ s.same x q))) ∧
        (s.same x y → t.numRoots = s.numRoots) ∧
        (¬ s.same x y → t.numRoots + 1 = s.numRoots) := by
      intro t a b ha hb hab hcase htp hrank
      refine ⟨DSU.attach_inv hi2 ha hb hab htp hrank,
        (DSU.size_of_set htp).trans ht.2.1, fun p q => ?_, fun h => absurd h hxy,
        fun _ => ?_⟩
      · rw [DSU.attach_same hi2 ha hb hab htp, DSU.sameTrees_same ht,
          ht.2.2.2, ht.2.2.2, ht.2.2.2, ht.2.2.2]
        rcases hcase with ⟨rfl, rfl⟩ | ⟨rfl, rfl⟩
        · rw [hsx, hsy, hsy, hsx]
          constructor
          · rintro (h | ⟨h, h'⟩ | ⟨h, h'⟩)
            · exact Or.inl h
            · exact Or.inr (Or.inl ⟨h, DSU.same_symm h'⟩)
            · exact Or.inr (Or.inr ⟨h, DSU.same_symm h'⟩)
          · rintro (h | ⟨h, h'⟩ | ⟨h, h'⟩)
            · exact Or.inl h
            · exact Or.inr (Or.inl ⟨h, DSU.same_symm h'⟩)
            · exact Or.inr (Or.inr ⟨h, DSU.same_symm h'⟩)
        · rw [hsx, hsy, hsy, hsx]
          constructor
          · rintro (h | ⟨h, h'⟩ | ⟨h, h'⟩)
            · exact Or.inl h
            · exact Or.inr (Or.inr ⟨h, DSU.same_symm h'⟩)
            · exact Or.inr (Or.inl ⟨h, DSU.same_symm h'⟩)
          · rintro (h | ⟨h, h'⟩ | ⟨h, h'⟩)
            · exact Or.inl h
            · exact Or.inr (Or.inr ⟨h, DSU.same_symm h'⟩)
            · exact Or.inr (Or.inl ⟨h, DSU.same_symm h'⟩)
      · rw [← DSU.numRoots_sameTrees ht]
        exact DSU.numRoots_attach hi2 ha hb hab htp
    unfold DSU.unionResult
    rw [if_neg h1]
    by_cases h2 : kx > ky
    · rw [if_pos h2]
      exact key _ ry rx hry2 hrx2 (Ne.symm h1) (Or.inr ⟨rfl, rfl⟩) rfl rfl
    · rw [if_neg h2]
      by_cases h3 : rx < ry
      · rw [if_pos h3]
        exact key _ rx ry hrx2 hry2 h1 (Or.inl ⟨rfl, rfl⟩) rfl rfl
      · rw [if_neg h3]
        exact key _ rx ry hrx2 hry2 h1 (Or.inl ⟨rfl, rfl⟩) rfl (by simp)

/-- The state built by the constructor satisfies the forest invariant, and
every vertex is its own root. -/
theorem DSU.new_rootOf (n : Nat) {i : Nat} (hi : i < n) : (DSU.new n).rootOf i i := by
  apply DSU.rootOf_self
  simp [DSU.isRoot, DSU.new, List.getElem?_range hi]

theorem DSU.new_size (n : Nat) : (DSU.new n).size = n := by
  simp [DSU.size, DSU.new]

theorem DSU.new_inv (n : Nat) : ForestInv (DSU.new n) := by
  rw [forestInv_iff]
  refine ⟨by simp [DSU.size, DSU.new], fun i hi => ⟨i, DSU.new_rootOf n ?_⟩⟩
  simpa [DSU.new_size] using hi

theorem DSU.new_same (n : Nat) (a b : Nat) : (DSU.new n).same a b ↔ (a = b ∧ a < n) := by
  constructor
  · rintro ⟨r, h1, h2⟩
    have ha : a < n := by simpa [DSU.new_size] using h1.1
    have hb : b < n := by simpa [DSU.new_size] using h2.1
    have e1 := DSU.rootOf_unique h1 (DSU.new_rootOf n ha)
    have e2 := DSU.rootOf_unique h2 (DSU.new_rootOf n hb)
    exact ⟨e1.symm.trans e2, ha⟩
  · rintro ⟨rfl, ha⟩
    exact ⟨a, DSU.new_rootOf n ha, DSU.new_rootOf n ha⟩

theorem DSU.new_numRoots (n : Nat) : (DSU.new n).numRoots = n := by
  unfold DSU.numRoots
  rw [DSU.new_size]
  have : ∀ i ∈ List.range n, (fun i => decide ((DSU.new n).isRoot i)) i = true := by
    intro i hi
    simpa using (DSU.new_rootOf n (List.mem_range.1 hi)).2.1
  rw [List.countP_eq_length.2 this, List.length_range]

/-! ## Graphs given by edge lists -/

theorem Conn.trans {es : List Edge} {a b c : Nat} (h : Conn es a b) (h' : Conn es b c) :
    Conn es a c := by
  induction h with
  | refl _ => exact h'
  | step e he hj _ ih => exact Conn.step e he hj (ih h')

theorem Conn.single {es : List Edge} {a b : Nat} (e : Edge) (he : e ∈ es) (hj : e.joins a b) :
    Conn es a b :=
  Conn.step e he hj (Conn.refl b)

theorem Edge.joins_symm {e : Edge} {a b : Nat} (h : e.joins a b) : e.joins b a :=
  Or.symm h

theorem Conn.symm {es : List Edge} {a b : Nat} (h : Conn es a b) : Conn es b a := by
  induction h with
  | refl _ => exact Conn.refl _
  | step e he hj _ ih => exact ih.trans (Conn.single e he (Edge.joins_symm hj))

theorem Conn.edge {es : List Edge} {e : Edge} (he : e ∈ es) : Conn es e.u e.v :=
  Conn.single e he (Or.inl ⟨rfl, rfl⟩)

theorem Conn.mono {es es' : List Edge} (hsub : ∀ e, e ∈ es → e ∈ es') {a b : Nat}
    (h : Conn es a b) : Conn es' a b := by
  induction h with
  | refl _ => exact Conn.refl _
  | step e he hj _ ih => exact Conn.step e (hsub e he) hj ih

theorem Conn.congr {es es' : List Edge} (hmem : ∀ e, e ∈ es ↔ e ∈ es') (a b : Nat) :
    Conn es a b ↔ Conn es' a b :=
  ⟨Conn.mono fun e => (hmem e).1, Conn.mono fun e => (hmem e).2⟩

/-- Connectivity is the least equivalence relation containing the edges. -/
theorem Conn.least {es : List Edge} {R : Nat → Nat → Prop} (hrefl : ∀ a, R a a)
    (hsymm : ∀ a b, R a b → R b a) (htrans : ∀ a b c, R a b → R b c → R a c)
    (hedge : ∀ e, e ∈ es → R e.u e.v) {a b : Nat} (h : Conn es a b) : R a b := by
  induction h with
  | refl _ => exact hrefl _
  | step e he hj _ ih =>
    rcases hj with ⟨rfl, rfl⟩ | ⟨rfl, rfl⟩
    · exact htrans _ _ _ (hedge e he) ih
    · exact htrans _ _ _ (hsymm _ _ (hedge e he)) ih

/-- Adding one edge `e` to `G` connects exactly the pairs that were connected
or that lie on the two sides of `e`. -/
theorem conn_cons (e : Edge) (G : List Edge) (a b : Nat) :
    Conn (e :: G) a b ↔
      (Conn G a b ∨ (Conn G a e.u ∧ Conn G e.v b) ∨ (Conn G a e.v ∧ Conn G e.u b)) := by
  constructor
  · intro h
    refine Conn.least (R := fun a b => Conn G a b ∨ (Conn G a e.u ∧ Conn G e.v b) ∨
      (Conn G a e.v ∧ Conn G e.u b)) ?_ ?_ ?_ ?_ h
    · exact fun a => Or.inl (Conn.refl a)
    · rintro a b (h | ⟨h, h'⟩ | ⟨h, h'⟩)
      · exact Or.inl h.symm
      · exact Or.inr (Or.inr ⟨h'.symm, h.symm⟩)
      · exact Or.inr (Or.inl ⟨h'.symm, h.symm⟩)
    · rintro a b c (h | ⟨h, h'⟩ | ⟨h, h'⟩) (k | ⟨k, k'⟩ | ⟨k, k'⟩)
      · exact Or.inl (h.trans k)
      · exact Or.inr (Or.inl ⟨h.trans k, k'⟩)
      · exact Or.inr (Or.inr ⟨h.trans k, k'⟩)
      · exact Or.inr (Or.inl ⟨h, h'.trans k⟩)
      · exact Or.inr (Or.inl ⟨h, k'⟩)
      · exact Or.inl (h.trans k')
      · exact Or.inr (Or.inr ⟨h, h'.trans k⟩)
      · exact Or.inl (h.trans k')
      · exact Or.inr (Or.inr ⟨h, k'⟩)
    · intro e' he'
      rcases List.mem_cons.1 he' with rfl | hmem
      · exact Or.inr (Or.inl ⟨Conn.refl _, Conn.refl _⟩)
      · exact Or.inl (Conn.edge hmem)
  · have hG : ∀ {x y : Nat}, Conn G x y → Conn (e :: G) x y :=
      fun h => Conn.mono (fun _ h' => List.mem_cons_of_mem _ h') h
    have he : Conn (e :: G) e.u e.v := Conn.edge (List.mem_cons_self _ _)
    rintro (h | ⟨h, h'⟩ | ⟨h, h'⟩)
    · exact hG h
    · exact (hG h).trans (he.trans (hG h'))
    · exact (hG h).trans (he.symm.trans (hG h'))

theorem wsum_perm {es es' : List Edge} (h : es.Perm es') : wsum es = wsum es' :=
  (h.map Edge.w).sum_eq

theorem isForest_iff (es : List Edge) : IsForest es ↔ AcyclicOver [] es := by
  unfold IsForest AcyclicOver
  simp

/-! ## Forests -/

theorem perm_cons_cases {e f : Edge} {l rest : List Edge} (h : (e :: l).Perm (f :: rest)) :
    (e = f ∧ l.Perm rest) ∨ ∃ rest0, l.Perm (f :: rest0) ∧ rest.Perm (e :: rest0) := by
  by_cases hef : e = f
  · subst hef
    exact Or.inl ⟨rfl, h.cons_inv⟩
  · right
    have hmem : e ∈ rest := by
      have : e ∈ f :: rest := h.subset (List.mem_cons_self _ _)
      rcases List.mem_cons.1 this with h1 | h1
      · exact absurd h1 hef
      · exact h1
    obtain ⟨l1, l2, rfl⟩ := List.append_of_mem hmem
    have hr : (l1 ++ e :: l2).Perm (e :: (l1 ++ l2)) := List.perm_middle
    refine ⟨l1 ++ l2, ?_, hr⟩
    have h1 : (e :: l).Perm (e :: f :: (l1 ++ l2)) :=
      h.trans ((hr.cons f).trans (List.Perm.swap e f _))
    exact h1.cons_inv

theorem conn_perm {es es' : List Edge} (base : List Edge) (h : es.Perm es') (a b : Nat) :
    Conn (base ++ es) a b ↔ Conn (base ++ es') a b := by
  apply Conn.congr
  intro e
  simp [List.mem_append, h.mem_iff]

theorem conn_append_cons (base : List Edge) (e : Edge) (G : List Edge) (a b : Nat) :
    Conn (base ++ e :: G) a b ↔ Conn (e :: (base ++ G)) a b := by
  apply Conn.congr
  intro e'
  simp only [List.mem_append, List.mem_cons]
  tauto

theorem conn_snoc_append (base : List Edge) (e : Edge) (G : List Edge) (a b : Nat) :
    Conn ((base ++ [e]) ++ G) a b ↔ Conn (e :: (base ++ G)) a b := by
  apply Conn.congr
  intro e'
  simp only [List.mem_append, List.mem_cons, List.mem_singleton, List.not_mem_nil, or_false]
  tauto

theorem AcyclicOver.perm {base F F' : List Edge} (h : AcyclicOver base F) (hp : F.Perm F') :
    AcyclicOver base F' :=
  fun f rest hfr => h f rest (hp.trans hfr)

/-- An edge whose endpoints the forest does not connect can be added to it. -/
theorem AcyclicOver.cons {base F : List Edge} {e : Edge} (h : AcyclicOver base F)
    (he : ¬ Conn (base ++ F) e.u e.v) : AcyclicOver base (e :: F) := by
  intro f rest hp
  rcases perm_cons_cases hp with ⟨rfl, hperm⟩ | ⟨rest0, hF, hrest⟩
  · rw [← conn_perm base hperm]
    exact he
  · intro hc
    rw [conn_perm base hrest, conn_append_cons, conn_cons] at hc
    have hf := h f rest0 hF
    have hsub : ∀ {x y : Nat}, Conn (base ++ rest0) x y → Conn (base ++ F) x y := by
      intro x y hxy
      rw [conn_perm base hF]
      exact Conn.mono (fun e' he' => by
        simp only [List.mem_append, List.mem_cons] at he' ⊢
        tauto) hxy
    have hfF : Conn (base ++ F) f.u f.v :=
      Conn.edge (List.mem_append_right _ (hF.symm.subset (List.mem_cons_self _ _)))
    rcases hc with hc | ⟨h1, h2⟩ | ⟨h1, h2⟩
    · exact hf hc
    · exact he ((hsub h1).symm.trans (hfF.trans (hsub h2).symm))
    · exact he ((hsub h2).trans (hfF.symm.trans (hsub h1)))

/-- Moving the first edge of a forest into the base. -/
theorem AcyclicOver.tail {base F : List Edge} {e : Edge} (h : AcyclicOver base (e :: F)) :
    AcyclicOver (base ++ [e]) F := by
  intro f rest hp hc
  have hp' : (e :: F).Perm (f :: (e :: rest)) := (hp.cons e).trans (List.Perm.swap f e rest)
  apply h f (e :: rest) hp'
  rw [conn_append_cons]
  rw [conn_snoc_append] at hc
  exact hc

theorem AcyclicOver.head {base F : List Edge} {e : Edge} (h : AcyclicOver base (e :: F)) :
    ¬ Conn (base ++ F) e.u e.v :=
  h e F (List.Perm.refl _)

/-- Edges that are each accepted only when their endpoints are not yet
connected form a forest. -/
theorem acyclicOver_of_fresh (base : List Edge) :
    ∀ new : List Edge,
      (∀ l1 e l2, new = l1 ++ e :: l2 → ¬ Conn (base ++ l1) e.u e.v) → AcyclicOver base new := by
  intro new
  induction new using List.reverseRecOn with
  | nil =>
    intro _ f rest hp
    exact absurd hp.symm (List.cons_ne_nil _ _ ∘ List.Perm.eq_nil)
  | append_singleton new0 e ih =>
    intro hfresh
    have h0 : AcyclicOver base new0 := by
      apply ih
      intro l1 e' l2 hsplit
      apply hfresh l1 e' (l2 ++ [e])
      rw [hsplit]
      simp
    have he : ¬ Conn (base ++ new0) e.u e.v := hfresh new0 e [] rfl
    exact (h0.cons he).perm (List.perm_append_singleton e new0).symm

/-! ## Properties of the greedy selection -/

theorem Greedy.sublist {acc es new : List Edge} (h : Greedy acc es new) : new.Sublist es := by
  induction h with
  | nil _ => exact List.Sublist.slnil
  | skip _ _ ih => exact ih.cons _
  | take _ _ ih => exact ih.cons₂ _

/-- Each kept edge joined two vertices that the base and the edges kept before
it did not connect. -/
theorem Greedy.fresh {acc es new : List Edge} (h : Greedy acc es new) :
    ∀ l1 e l2, new = l1 ++ e :: l2 → ¬ Conn (acc ++ l1) e.u e.v := by
  induction h with
  | nil _ =>
    intro l1 e l2 hsplit
    exact absurd hsplit (by simp)
  | skip _ _ ih => exact ih
  | @take acc e0 rest new hn _ ih =>
    intro l1 e l2 hsplit
    cases l1 with
    | nil =>
      simp only [List.nil_append, List.cons.injEq] at hsplit
      obtain ⟨rfl, _⟩ := hsplit
      simpa using hn
    | cons x l1 =>
      simp only [List.cons_append, List.cons.injEq] at hsplit
      obtain ⟨rfl, hrest⟩ := hsplit
      have := ih l1 e l2 hrest
      simpa [List.append_assoc] using this

/-- The kept edges connect the same pairs as all scanned edges. -/
theorem Greedy.conn {acc es new : List Edge} (h : Greedy acc es new) (a b : Nat) :
    Conn (acc ++ new) a b ↔ Conn (acc ++ es) a b := by
  induction h with
  | nil _ => exact Iff.rfl
  | @skip acc e rest new hc _ ih =>
    rw [ih, conn_append_cons, conn_cons]
    have hce : Conn (acc ++ rest) e.u e.v :=
      Conn.mono (fun _ h' => List.mem_append_left _ h') hc
    constructor
    · exact Or.inl
    · rintro (h1 | ⟨h1, h2⟩ | ⟨h1, h2⟩)
      · exact h1
      · exact h1.trans (hce.trans h2)
      · exact h1.trans (hce.symm.trans h2)
  | @take acc e rest new _ _ ih =>
    have := ih
    simpa [List.append_assoc] using this

theorem Greedy.acyclic {acc es new : List Edge} (h : Greedy acc es new) : AcyclicOver acc new :=
  acyclicOver_of_fresh acc new h.fresh

/-! ## Optimality of the greedy selection -/

/-- Among edges `F` that connect `u` and `v` over `base`, some edge is the first
to do so. -/
theorem exists_bridge (base : List Edge) {u v : Nat} (hn : ¬ Conn base u v) :
    ∀ F : List Edge, Conn (base ++ F) u v →
      ∃ F1 f F2, F = F1 ++ f :: F2 ∧ ¬ Conn (base ++ F1) u v ∧
        Conn (base ++ (F1 ++ [f])) u v := by
  intro F
  induction F using List.reverseRecOn with
  | nil =>
    intro h
    simp only [List.append_nil] at h
    exact absurd h hn
  | append_singleton F0 g ih =>
    intro h
    by_cases h0 : Conn (base ++ F0) u v
    · obtain ⟨F1, f, F2, hF, h1, h2⟩ := ih h0
      exact ⟨F1, f, F2 ++ [g], by rw [hF]; simp, h1, h2⟩
    · exact ⟨F0, g, [], rfl, h0, h⟩

/-- The exchange step: when the forest `F` connects the endpoints of `e` and
`acc` does not, one edge `f` of `F` can be traded for `e`. -/
theorem exchange {acc F : List Edge} {e : Edge} (hac : AcyclicOver acc F)
    (hn : ¬ Conn acc e.u e.v) (hc : Conn (acc ++ F) e.u e.v) :
    ∃ f F', F.Perm (f :: F') ∧ F'.Sublist F ∧ AcyclicOver (acc ++ [e]) F' ∧
      (∀ a b, Conn (acc ++ F) a b → Conn ((acc ++ [e]) ++ F') a b) := by
  obtain ⟨F1, f, F2, rfl, hpre, hpost⟩ := exists_bridge acc hn F hc
  have hperm : (F1 ++ f :: F2).Perm (f :: (F1 ++ F2)) := List.perm_middle
  have hbridge : ¬ Conn (acc ++ (F1 ++ F2)) f.u f.v := hac f (F1 ++ F2) hperm
  have hmono : ∀ {x y : Nat}, Conn (acc ++ F1) x y → Conn (acc ++ (F1 ++ F2)) x y :=
    fun h => Conn.mono (fun e' he' => by
      simp only [List.mem_append] at he' ⊢
      tauto) h
  have hsides : (Conn (acc ++ (F1 ++ F2)) e.u f.u ∧ Conn (acc ++ (F1 ++ F2)) f.v e.v) ∨
      (Conn (acc ++ (F1 ++ F2)) e.u f.v ∧ Conn (acc ++ (F1 ++ F2)) f.u e.v) := by
    have h1 : Conn (f :: (acc ++ F1)) e.u e.v := by
      refine Conn.mono (fun e' he' => ?_) hpost
      simp only [List.mem_append, List.mem_cons, List.mem_singleton, List.not_mem_nil,
        or_false] at he' ⊢
      tauto
    rw [conn_cons] at h1
    rcases h1 with h1 | ⟨h1, h2⟩ | ⟨h1, h2⟩
    · exact absurd h1 hpre
    · exact Or.inl ⟨hmono h1, hmono h2⟩
    · exact Or.inr ⟨hmono h1, hmono h2⟩
  have hG : ¬ Conn (acc ++ (F1 ++ F2)) e.u e.v := by
    intro h
    rcases hsides with ⟨h1, h2⟩ | ⟨h1, h2⟩
    · exact hbridge (h1.symm.trans (h.trans h2.symm))
    · exact hbridge (h2.trans (h.symm.trans h1))
  refine ⟨f, F1 ++ F2, hperm, (List.sublist_cons_self f F2).append_left F1, ?_, ?_⟩
  · intro g rest hp hcg
    rw [conn_snoc_append, conn_cons] at hcg
    have hg : ¬ Conn (acc ++ (f :: rest)) g.u g.v := by
      apply hac g (f :: rest)
      exact hperm.trans ((hp.cons f).trans (List.Perm.swap g f rest))
    have hsub : ∀ {x y : Nat}, Conn (acc ++ rest) x y → Conn (acc ++ (g :: rest)) x y :=
      fun h => Conn.mono (fun e' he' => by
        simp only [List.mem_append, List.mem_cons] at he' ⊢
        tauto) h
    have hge : Conn (acc ++ (g :: rest)) g.u g.v :=
      Conn.edge (List.mem_append_right _ (List.mem_cons_self _ _))
    rcases hcg with h | ⟨h1, h2⟩ | ⟨h1, h2⟩
    · exact hg (Conn.mono (fun e' he' => by
        simp only [List.mem_append, List.mem_cons] at he' ⊢
        tauto) h)
    · apply hG
      rw [conn_perm acc hp]
      exact (hsub h1).symm.trans (hge.trans (hsub h2).symm)
    · apply hG
      rw [conn_perm acc hp]
      exact (hsub h2).trans (hge.symm.trans (hsub h1))
  · intro a b hab
    rw [conn_perm acc hperm, conn_append_cons, conn_cons] at hab
    rw [conn_snoc_append]
    have hup : ∀ {x y : Nat}, Conn (acc ++ (F1 ++ F2)) x y →
        Conn (e :: (acc ++ (F1 ++ F2))) x y :=
      fun h => Conn.mono (fun _ h' => List.mem_cons_of_mem _ h') h
    have hee : Conn (e :: (acc ++ (F1 ++ F2))) e.u e.v := Conn.edge (List.mem_cons_self _ _)
    have hff : Conn (e :: (acc ++ (F1 ++ F2))) f.u f.v := by
      rcases hsides with ⟨h1, h2⟩ | ⟨h1, h2⟩
      · exact (hup h1).symm.trans (hee.trans (hup h2).symm)
      · exact (hup h2).trans (hee.symm.trans (hup h1))
    rcases hab with h | ⟨h1, h2⟩ | ⟨h1, h2⟩
    · exact hup h
    · exact (hup h1).trans (hff.trans (hup h2))
    · exact (hup h1).trans (hff.symm.trans (hup h2))

theorem wsum_cons (e : Edge) (es : List Edge) : wsum (e :: es) = e.w + wsum es := by
  simp [wsum]

/-- The greedy selection over edges in order of weight weighs no more than
any forest over `acc` that connects what all edges connect. -/
theorem Greedy.optimal {acc es new : List Edge} (h : Greedy acc es new) :
    es.Pairwise (fun a b => a.w ≤ b.w) →
    ∀ F : List Edge, F.Sublist es → AcyclicOver acc F →
      (∀ a b, Conn (acc ++ es) a b → Conn (acc ++ F) a b) → wsum new ≤ wsum F := by
  induction h with
  | nil _ =>
    intro _ F hsub _ _
    rw [List.sublist_nil.1 hsub]
  | @skip acc e rest new hc _ ih =>
    intro hsorted F hsub hac hspan
    rcases List.sublist_cons_iff.1 hsub with hsub' | ⟨r, rfl, _⟩
    · apply ih (List.Pairwise.of_cons hsorted) F hsub' hac
      intro a b hab
      apply hspan
      exact Conn.mono (fun e' he' => by
        simp only [List.mem_append, List.mem_cons] at he' ⊢
        tauto) hab
    · exact absurd (Conn.mono (fun _ h' => List.mem_append_left _ h') hc) hac.head
  | @take acc e rest new hn _ ih =>
    intro hsorted F hsub hac hspan
    have hspan' : ∀ F' : List Edge,
        (∀ a b, Conn (acc ++ F) a b → Conn ((acc ++ [e]) ++ F') a b) →
        ∀ a b, Conn ((acc ++ [e]) ++ rest) a b → Conn ((acc ++ [e]) ++ F') a b := by
      intro F' hF' a b hab
      apply hF'
      apply hspan
      simpa [List.append_assoc] using hab
    rcases List.sublist_cons_iff.1 hsub with hsub' | ⟨r, rfl, hr⟩
    · have hce : Conn (acc ++ F) e.u e.v :=
        hspan _ _ (Conn.edge (List.mem_append_right _ (List.mem_cons_self _ _)))
      obtain ⟨f, F', hperm, hF'sub, hF'ac, hF'span⟩ := exchange hac hn hce
      have hle := ih (List.Pairwise.of_cons hsorted) F' (hF'sub.trans hsub') hF'ac
        (hspan' F' hF'span)
      have hf : f ∈ rest := hsub'.subset (hperm.symm.subset (List.mem_cons_self _ _))
      have hw : e.w ≤ f.w := (List.pairwise_cons.1 hsorted).1 f hf
      rw [wsum_perm hperm, wsum_cons, wsum_cons]
      omega
    · have hle := ih (List.Pairwise.of_cons hsorted) r hr hac.tail (hspan' r (by
        intro a b hab
        simpa [List.append_assoc] using hab))
      rw [wsum_cons, wsum_cons]
      omega

/-! ## The scan of `MST_kruskal` is the greedy selection -/

/-- One iteration on a state whose components are those of the edges `acc`
accepted so far. -/
theorem scanStep_spec {V : Nat} {st : Scan} {acc : List Edge} {e : Edge}
    (hinv : ForestInv st.dsu) (hsz : st.dsu.size = V) (hu : e.u < V) (hv : e.v < V)
    (hconn : ∀ a b, a < V → b < V → (st.dsu.same a b ↔ Conn acc a b)) :
    ∃ st', scanStep st e = some st' ∧ ForestInv st'.dsu ∧ st'.dsu.size = V ∧
      ((Conn acc e.u e.v ∧ st'.lines = st.lines ∧ st'.cost = st.cost ∧
          st'.dsu.numRoots = st.dsu.numRoots ∧
          ∀ a b, a < V → b < V → (st'.dsu.same a b ↔ Conn acc a b)) ∨
       (¬ Conn acc e.u e.v ∧ st'.lines = st.lines ++ [e.line] ∧ st'.cost = st.cost + e.w ∧
          st'.dsu.numRoots + 1 = st.dsu.numRoots ∧
          ∀ a b, a < V → b < V → (st'.dsu.same a b ↔ Conn (acc ++ [e]) a b))) := by
  obtain ⟨ru, d1, hf1, hru, ht1, hi1⟩ := DSU.Find_spec hinv (hsz ▸ hu)
  obtain ⟨rv, d2, hf2, hrv1, ht2, hi2⟩ := DSU.Find_spec hi1 (by rw [ht1.2.1, hsz]; exact hv)
  have hrv : st.dsu.rootOf e.v rv := (ht1.2.2.2 _ _).1 hrv1
  have ht : st.dsu.sameTrees d2 := DSU.sameTrees_trans ht1 ht2
  have hsz2 : d2.size = V := ht.2.1.trans hsz
  have hsame2 : ∀ a b, a < V → b < V → (d2.same a b ↔ Conn acc a b) := by
    intro a b ha hb
    rw [DSU.sameTrees_same ht, hconn a b ha hb]
  have hroots : ru = rv ↔ Conn acc e.u e.v := by
    rw [← hconn _ _ hu hv]
    constructor
    · intro h
      exact ⟨ru, hru, h ▸ hrv⟩
    · rintro ⟨r, h1, h2⟩
      exact (DSU.rootOf_unique hru h1).trans (DSU.rootOf_unique h2 hrv)
  by_cases heq : ru = rv
  · refine ⟨{ st with dsu := d2 }, ?_, hi2, hsz2, Or.inl ⟨hroots.1 heq, rfl, rfl,
      DSU.numRoots_sameTrees ht, hsame2⟩⟩
    simp [scanStep, hf1, hf2, heq]
  · obtain ⟨d3, hU, hi3, hsz3, hsame3, _, hcount⟩ :=
      DSU.Union_spec hi2 (x := e.u) (y := e.v) (by rw [hsz2]; exact hu) (by rw [hsz2]; exact hv)
    have hnc : ¬ Conn acc e.u e.v := fun h => heq (hroots.2 h)
    have hns : ¬ d2.same e.u e.v := fun h => hnc ((hsame2 _ _ hu hv).1 h)
    refine ⟨{ dsu := d3, lines := st.lines ++ [e.line], cost := st.cost + e.w }, ?_, hi3,
      hsz3.trans hsz2, Or.inr ⟨hnc, rfl, rfl, ?_, ?_⟩⟩
    · simp [scanStep, hf1, hf2, heq, hU, Edge.line]
    · rw [← DSU.numRoots_sameTrees ht]
      exact hcount hns
    · intro a b ha hb
      have hcongr : Conn (acc ++ [e]) a b ↔ Conn (e :: acc) a b := by
        apply Conn.congr
        intro e'
        simp only [List.mem_append, List.mem_cons, List.mem_singleton, List.not_mem_nil,
          or_false]
        tauto
      rw [hsame3, hcongr, conn_cons, hsame2 a b ha hb, hsame2 a _ ha hu, hsame2 _ b hv hb,
        hsame2 a _ ha hv, hsame2 _ b hu hb]

/-- The loop over `es`: it runs to the end, the lines printed are those of the
greedy selection, `cost` grows by their weight, and one root disappears for
every accepted edge. -/
theorem scan_spec {V : Nat} : ∀ (es : List Edge) (st : Scan) (acc : List Edge),
    ForestInv st.dsu → st.dsu.size = V → (∀ e ∈ es, e.u < V ∧ e.v < V) →
    (∀ a b, a < V → b < V → (st.dsu.same a b ↔ Conn acc a b)) →
    ∃ st' new, scan st es = some st' ∧ Greedy acc es new ∧
      st'.lines = st.lines ++ new.map Edge.line ∧ st'.cost = st.cost + wsum new ∧
      ForestInv st'.dsu ∧ st'.dsu.size = V ∧
      st'.dsu.numRoots + new.length = st.dsu.numRoots ∧
      (∀ a b, a < V → b < V → (st'.dsu.same a b ↔ Conn (acc ++ new) a b)) := by
  intro es
  induction es with
  | nil =>
    intro st acc hinv hsz _ hconn
    exact ⟨st, [], rfl, Greedy.nil acc, by simp, by simp [wsum], hinv, hsz, by simp,
      by simpa using hconn⟩
  | cons e rest ih =>
    intro st acc hinv hsz hval hconn
    have he := hval e (List.mem_cons_self _ _)
    obtain ⟨st1, hstep, hinv1, hsz1, hcase⟩ := scanStep_spec hinv hsz he.1 he.2 hconn
    have hval' : ∀ e' ∈ rest, e'.u < V ∧ e'.v < V :=
      fun e' he' => hval e' (List.mem_cons_of_mem _ he')
    rcases hcase with ⟨hc, hl, hcost, hnum, hconn1⟩ | ⟨hc, hl, hcost, hnum, hconn1⟩
    · obtain ⟨st', new, hscan, hg, hl', hcost', hinv', hsz', hnum', hconn'⟩ :=
        ih st1 acc hinv1 hsz1 hval' hconn1
      refine ⟨st', new, ?_, Greedy.skip hc hg, ?_, ?_, hinv', hsz', ?_, hconn'⟩
      · simp [scan, hstep, hscan]
      · rw [hl', hl]
      · rw [hcost', hcost]
      · rw [hnum', hnum]
    · obtain ⟨st', new, hscan, hg, hl', hcost', hinv', hsz', hnum', hconn'⟩ :=
        ih st1 (acc ++ [e]) hinv1 hsz1 hval' hconn1
      refine ⟨st', e :: new, ?_, Greedy.take hc hg, ?_, ?_, hinv', hsz', ?_, ?_⟩
      · simp [scan, hstep, hscan]
      · rw [hl', hl]
        simp
      · rw [hcost', hcost, wsum_cons]
        omega
      · simp only [List.length_cons]
        omega
      · intro a b ha hb
        rw [hconn' a b ha hb]
        simp [List.append_assoc]

/-! ## The input graph of `MST_kruskal` -/

theorem flattenFrom_eq (adjList : AdjList) : ∀ (k u : Nat), u + k ≤ adjList.length →
    flattenFrom adjList u k = some ((List.range' u k).flatMap (rowEdges adjList)) := by
  intro k
  induction k with
  | zero => intro u _; simp [flattenFrom]
  | succ k ih =>
    intro u hu
    have hlt : u < adjList.length := by omega
    have hrow : adjList[u]? = some (adjList.getD u []) := by
      simp [List.getD, List.getElem?_eq_getElem hlt]
    rw [flattenFrom, hrow, ih (u + 1) (by omega), List.range'_succ, List.flatMap_cons]
    rfl

theorem flatten_eq {V : Nat} {adjList : AdjList} (h : V ≤ adjList.length) :
    flatten V adjList = some (inputEdges V adjList) := by
  unfold flatten inputEdges
  rw [flattenFrom_eq adjList V 0 (by omega), List.range_eq_range']

theorem inputEdges_valid {V : Nat} {adjList : AdjList} (h : ValidAdj V adjList) :
    ∀ e ∈ inputEdges V adjList, e.u < V ∧ e.v < V := by
  intro e he
  unfold inputEdges at he
  rw [List.mem_flatMap] at he
  obtain ⟨u, hu, hmem⟩ := he
  unfold rowEdges at hmem
  rw [List.mem_map] at hmem
  obtain ⟨p, hp, rfl⟩ := hmem
  have hu' : u < V := List.mem_range.1 hu
  exact ⟨hu', h.2 u hu' p hp⟩

/-! ## Sorting -/

theorem edgeLe_weight {a b : Edge} (h : edgeLe a b) : a.w ≤ b.w := by
  unfold edgeLe at h
  show a.1 ≤ b.1
  omega

theorem sortEdges_perm (es : List Edge) : (sortEdges es).Perm es :=
  List.perm_insertionSort edgeLe es

theorem sortEdges_sorted (es : List Edge) :
    (sortEdges es).Pairwise (fun a b => a.w ≤ b.w) :=
  List.Pairwise.imp (fun h => edgeLe_weight h) (List.sorted_insertionSort edgeLe es)

theorem conn_sortEdges (es : List Edge) (a b : Nat) :
    Conn (sortEdges es) a b ↔ Conn es a b :=
  Conn.congr (fun _ => (sortEdges_perm es).mem_iff) a b

/-! ## `MST_kruskal` as a whole -/

/-- On a valid input `MST_kruskal` runs to the end; the printed lines are those
of the greedy selection `accepted` over the sorted input edges, `cost` is its
weight, and the final `dsu` has the components of `accepted`. -/
theorem MST_kruskal_spec {V : Nat} {adjList : AdjList} (h : ValidAdj V adjList) :
    ∃ accepted d, MST_kruskal V adjList = some (accepted.map Edge.line, wsum accepted) ∧
      Greedy [] (sortEdges (inputEdges V adjList)) accepted ∧
      ForestInv d ∧ d.size = V ∧ d.numRoots + accepted.length = V ∧
      (∀ a b, a < V → b < V → (d.same a b ↔ Conn accepted a b)) := by
  have hval : ∀ e ∈ sortEdges (inputEdges V adjList), e.u < V ∧ e.v < V :=
    fun e he => inputEdges_valid h e ((sortEdges_perm _).mem_iff.1 he)
  have hinit : ∀ a b, a < V → b < V → ((DSU.new V).same a b ↔ Conn [] a b) := by
    intro a b ha _
    rw [DSU.new_same]
    constructor
    · rintro ⟨rfl, _⟩
      exact Conn.refl _
    · intro hc
      cases hc with
      | refl _ => exact ⟨rfl, ha⟩
      | step e he _ _ => cases he
  obtain ⟨st', new, hscan, hg, hl, hcost, hinv, hsz, hnum, hconn⟩ :=
    scan_spec (V := V) (sortEdges (inputEdges V adjList))
      { dsu := DSU.new V, lines := [], cost := 0 } [] (DSU.new_inv V) (DSU.new_size V)
      hval hinit
  refine ⟨new, st'.dsu, ?_, hg, hinv, hsz, ?_, ?_⟩
  · simp only [List.nil_append, zero_add] at hl hcost
    simp [MST_kruskal, flatten_eq h.1, hscan, hl, hcost]
  · simpa [DSU.new_numRoots] using hnum
  · simpa using hconn

theorem isForest_of_greedy {es accepted : List Edge} (h : Greedy [] es accepted) :
    IsForest accepted :=
  (isForest_iff accepted).2 h.acyclic

theorem spanningForest_of_greedy {E accepted : List Edge}
    (h : Greedy [] (sortEdges E) accepted) : SpanningForest E accepted := by
  refine ⟨h.sublist.subperm.trans (sortEdges_perm E).subperm, isForest_of_greedy h, ?_⟩
  intro a b
  have := h.conn a b
  simp only [List.nil_append] at this
  rw [this, conn_sortEdges]

theorem greedy_minimal {E accepted F : List Edge} (h : Greedy [] (sortEdges E) accepted)
    (hF : SpanningForest E F) : wsum accepted ≤ wsum F := by
  obtain ⟨hsub, hfor, hspan⟩ := hF
  have hsub' : F.Subperm (sortEdges E) := hsub.trans (sortEdges_perm E).symm.subperm
  obtain ⟨F', hperm, hsl⟩ := hsub'
  have hac : AcyclicOver [] F' := ((isForest_iff F).1 hfor).perm hperm.symm
  have := h.optimal (sortEdges_sorted E) F' hsl hac (by
    intro a b hab
    simp only [List.nil_append] at hab ⊢
    rw [conn_sortEdges, ← hspan] at hab
    exact (Conn.congr (fun _ => hperm.mem_iff) a b).2 hab)
  rw [wsum_perm hperm] at this
  exact this

/-! ## Auxiliary facts for concrete states and inputs -/

/-- The executable check is sound for the forest invariant. -/
theorem forestInv_of_check {s : DSU} (h : s.checkInv = true) : ForestInv s := by
  unfold DSU.checkInv at h
  rw [Bool.and_eq_true, List.all_eq_true] at h
  rw [forestInv_iff]
  refine ⟨by simpa using h.1, fun i hi => ?_⟩
  have := h.2 i (List.mem_range.2 hi)
  exact ⟨_, hi, by simpa using this, s.size, rfl⟩

/-- An edge with an endpoint outside `[0, V)` makes the reading loop index
`adjList` outside the vector, whatever was read before. -/
theorem readEdges_out_of_range (V : Nat) : ∀ (input : List (Int × Int × Int)) (adjList : AdjList),
    (∃ e ∈ input, inRange V e.1 = false ∨ inRange V e.2.1 = false) →
    readEdges V input adjList = none := by
  intro input
  induction input with
  | nil =>
    rintro _ ⟨e, he, _⟩
    cases he
  | cons t rest ih =>
    intro adjList hex
    obtain ⟨u, v, w⟩ := t
    by_cases hu : inRange V u = true
    · by_cases hv : inRange V v = true
      · simp only [readEdges, hu, hv, if_true]
        apply ih
        obtain ⟨e, he, hbad⟩ := hex
        rcases List.mem_cons.1 he with rfl | hmem
        · simp [hu, hv] at hbad
        · exact ⟨e, hmem, hbad⟩
      · simp [readEdges, hu, hv]
    · simp [readEdges, hu]

/-! ## From `main` to `MST_kruskal` -/

theorem pushAt_length (adjList : AdjList) (i : Nat) (entry : Nat × Int) :
    (pushAt adjList i entry).length = adjList.length := by
  simp [pushAt]

theorem pushAt_getD (adjList : AdjList) (i : Nat) (entry : Nat × Int) (hi : i < adjList.length)
    (u : Nat) :
    (pushAt adjList i entry).getD u [] =
      if u = i then adjList.getD i [] ++ [entry] else adjList.getD u [] := by
  simp only [pushAt, List.getD_eq_getElem?_getD, List.getElem?_modify]
  by_cases hu : u = i
  · subst hu
    simp [List.getElem?_eq_getElem hi]
  · have hne : ¬ i = u := fun h => hu h.symm
    simp only [hu, hne, if_false]
    cases adjList[u]? <;> rfl

theorem inRange_cast (V n : Nat) : inRange V (n : Int) = decide (n < V) := by
  simp [inRange]

/-- Reading well-formed edges never leaves the vector, and row `u` receives
exactly the entries of the edges with endpoint `u`. -/
theorem readEdges_valid (V : Nat) : ∀ (es : List (Nat × Nat × Int)) (adj0 : AdjList),
    (∀ t ∈ es, t.1 < V ∧ t.2.1 < V) → adj0.length = V →
    ∃ adjList, readEdges V (castInput es) adj0 = some adjList ∧ adjList.length = V ∧
      ∀ u p, p ∈ adjList.getD u [] ↔
        (p ∈ adj0.getD u [] ∨
          ∃ t ∈ es, (t.1 = u ∧ p = (t.2.1, t.2.2)) ∨ (t.2.1 = u ∧ p = (t.1, t.2.2))) := by
  intro es
  induction es with
  | nil =>
    intro adj0 _ hlen
    exact ⟨adj0, rfl, hlen, by simp⟩
  | cons t rest ih =>
    intro adj0 hval hlen
    obtain ⟨hu, hv⟩ := hval t (List.mem_cons_self _ _)
    have hlen1 : (pushAt adj0 t.1 (t.2.1, t.2.2)).length = V := by
      rw [pushAt_length, hlen]
    have hlen2 : (pushAt (pushAt adj0 t.1 (t.2.1, t.2.2)) t.2.1 (t.1, t.2.2)).length = V := by
      rw [pushAt_length, hlen1]
    obtain ⟨adjList, hread, hl, hmem⟩ :=
      ih (pushAt (pushAt adj0 t.1 (t.2.1, t.2.2)) t.2.1 (t.1, t.2.2))
        (fun t' ht' => hval t' (List.mem_cons_of_mem _ ht')) hlen2
    refine ⟨adjList, ?_, hl, fun u p => ?_⟩
    · simp only [castInput, List.map_cons, readEdges, inRange_cast, hu, hv, decide_True,
        if_true, Int.toNat_ofNat]
      exact hread
    · have hpush : p ∈ (pushAt (pushAt adj0 t.1 (t.2.1, t.2.2)) t.2.1 (t.1, t.2.2)).getD u [] ↔
          (p ∈ adj0.getD u [] ∨ (t.1 = u ∧ p = (t.2.1, t.2.2)) ∨
            (t.2.1 = u ∧ p = (t.1, t.2.2))) := by
        have e1 := pushAt_getD adj0 t.1 (t.2.1, t.2.2) (by rw [hlen]; exact hu)
        have e2 := pushAt_getD (pushAt adj0 t.1 (t.2.1, t.2.2)) t.2.1 (t.1, t.2.2)
          (by rw [hlen1]; exact hv)
        simp only [e2, e1]
        by_cases h1 : u = t.2.1 <;> by_cases h2 : u = t.1
        · subst h1
          simp only [if_true, h2, List.mem_append, List.mem_singleton]
          rw [← h2]
          tauto
        · subst h1
          simp only [if_true, h2, if_false, List.mem_append, List.mem_singleton]
          have : ¬ t.1 = t.2.1 := fun h => h2 h.symm
          tauto
        · subst h2
          simp only [if_true, h1, if_false, List.mem_append, List.mem_singleton]
          have : ¬ t.2.1 = t.1 := fun h => h1 h.symm
          tauto
        · simp only [h1, h2, if_false]
          have : ¬ t.2.1 = u := fun h => h1 h.symm
          have : ¬ t.1 = u := fun h => h2 h.symm
          tauto
      rw [hmem u p, hpush]
      simp only [List.mem_cons, exists_eq_or_imp]
      constructor
      · rintro ((h1 | h1) | h1)
        · exact Or.inl h1
        · exact Or.inr (Or.inl h1)
        · exact Or.inr (Or.inr h1)
      · rintro (h1 | h1 | h1)
        · exact Or.inl (Or.inl h1)
        · exact Or.inl (Or.inr h1)
        · exact Or.inr h1

/-- On well-formed input `main` hands `MST_kruskal` a valid adjacency
structure whose edges are those of the graph read, and ends the way
`MST_kruskal` does. -/
theorem main_valid (V : Nat) (es : List (Nat × Nat × Int))
    (h : ∀ t ∈ es, t.1 < V ∧ t.2.1 < V) :
    ∃ adjList, ValidAdj V adjList ∧ (∀ e, e ∈ inputEdges V adjList ↔ e ∈ graphOf es) ∧
      ∀ lines cost, MST_kruskal V adjList = some (lines, cost) →
        main V (castInput es) = Outcome.finished lines cost := by
  obtain ⟨adjList, hread, hl, hmem⟩ :=
    readEdges_valid V es (List.replicate V []) h (by simp)
  have hmem' : ∀ u p, p ∈ adjList.getD u [] ↔
      ∃ t ∈ es, (t.1 = u ∧ p = (t.2.1, t.2.2)) ∨ (t.2.1 = u ∧ p = (t.1, t.2.2)) := by
    intro u p
    rw [hmem u p]
    have : (List.replicate V ([] : List (Nat × Int))).getD u [] = [] := by
      simp only [List.getD_eq_getElem?_getD, List.getElem?_replicate]
      split <;> rfl
    simp [this]
  refine ⟨adjList, ⟨by omega, ?_⟩, ?_, ?_⟩
  · intro u _ p hp
    obtain ⟨t, ht, ⟨_, rfl⟩ | ⟨_, rfl⟩⟩ := (hmem' u p).1 hp
    · exact (h t ht).2
    · exact (h t ht).1
  · intro e
    simp only [inputEdges, graphOf, rowEdges, List.mem_flatMap, List.mem_range, List.mem_map,
      List.mem_cons, List.mem_singleton, List.not_mem_nil, or_false]
    constructor
    · rintro ⟨u, _, p, hp, rfl⟩
      obtain ⟨t, ht, ⟨rfl, rfl⟩ | ⟨rfl, rfl⟩⟩ := (hmem' u p).1 hp
      · exact ⟨t, ht, Or.inl rfl⟩
      · exact ⟨t, ht, Or.inr rfl⟩
    · rintro ⟨t, ht, rfl | rfl⟩
      · exact ⟨t.1, (h t ht).1, (t.2.1, t.2.2), (hmem' _ _).2 ⟨t, ht, Or.inl ⟨rfl, rfl⟩⟩, rfl⟩
      · exact ⟨t.2.1, (h t ht).2, (t.1, t.2.2), (hmem' _ _).2 ⟨t, ht, Or.inr ⟨rfl, rfl⟩⟩, rfl⟩
  · intro lines cost hrun
    simp [main, hread, hrun]

/-- A forest has no repeated edge. -/
theorem IsForest.nodup {F : List Edge} (h : IsForest F) : F.Nodup := by
  by_contra hnd
  obtain ⟨x, hx⟩ := List.exists_duplicate_iff_not_nodup.2 hnd
  obtain ⟨rest, hperm⟩ := (List.duplicate_iff_sublist.1 hx).exists_perm_append
  exact h x (x :: rest) hperm (Conn.edge (List.mem_cons_self _ _))

/-- A forest made of edges of `E` that connects what `E` connects is a
spanning forest of `E`. -/
theorem spanningForest_of_subset {E F : List Edge} (hsub : ∀ f ∈ F, f ∈ E) (hfor : IsForest F)
    (hspan : ∀ a b, Conn F a b ↔ Conn E a b) : SpanningForest E F :=
  ⟨List.subperm_of_subset hfor.nodup hsub, hfor, hspan⟩

/-- The whole program on well-formed input: it ends normally, `cost` is the
weight of the accepted edges, these are a forest of edges of the graph read
that connects what the graph connects, and no such forest weighs less. -/
theorem main_minimum (V : Nat) (es : List (Nat × Nat × Int))
    (h : ∀ t ∈ es, t.1 < V ∧ t.2.1 < V) :
    ∃ accepted, main V (castInput es) = Outcome.finished (accepted.map Edge.line) (wsum accepted) ∧
      (∀ f ∈ accepted, f ∈ graphOf es) ∧ IsForest accepted ∧
      (∀ a b, Conn accepted a b ↔ Conn (graphOf es) a b) ∧
      ∀ F, (∀ f ∈ F, f ∈ graphOf es) → IsForest F →
        (∀ a b, Conn F a b ↔ Conn (graphOf es) a b) → wsum accepted ≤ wsum F := by
  obtain ⟨adjList, hvalid, hmem, hmain⟩ := main_valid V es h
  obtain ⟨accepted, _, hrun, hg, _⟩ := MST_kruskal_spec hvalid
  have hsf := spanningForest_of_greedy hg
  have hconn : ∀ a b, Conn (inputEdges V adjList) a b ↔ Conn (graphOf es) a b :=
    Conn.congr hmem
  refine ⟨accepted, hmain _ _ hrun, fun f hf => (hmem f).1 (hsf.1.subset hf), hsf.2.1,
    fun a b => (hsf.2.2 a b).trans (hconn a b), fun F hsub hfor hspan => ?_⟩
  apply greedy_minimal hg
  exact spanningForest_of_subset (fun f hf => (hmem f).2 (hsub f hf)) hfor
    (fun a b => (hspan a b).trans (hconn a b).symm)

/-! ## The parent path compressed by `Find` -/

theorem DSU.not_onPath_of_isRoot {s : DSU} {x i : Nat} (hx : s.isRoot x) : ¬ s.onPath x i := by
  rintro ⟨j, hj, hnr⟩
  rw [DSU.follow_fixed (DSU.link_of_isRoot hx)] at hj
  exact hnr (hj ▸ hx)

theorem DSU.onPath_step {s : DSU} {x : Nat} (hx : ¬ s.isRoot x) (i : Nat) :
    s.onPath x i ↔ (i = x ∨ s.onPath (s.link x) i) := by
  constructor
  · rintro ⟨j, hj, hnr⟩
    cases j with
    | zero => exact Or.inl hj.symm
    | succ j => exact Or.inr ⟨j, hj, hnr⟩
  · rintro (rfl | ⟨j, hj, hnr⟩)
    · exact ⟨0, rfl, hx⟩
    · exact ⟨j + 1, hj, hnr⟩

/-- A vertex on the path from `x` has the root of `x`. -/
theorem DSU.rootOf_of_onPath {s : DSU} {x r i : Nat} (hr : s.rootOf x r) (hi : s.onPath x i) :
    s.rootOf i r := by
  obtain ⟨j, rfl, _⟩ := hi
  obtain ⟨_, hroot, k, hk⟩ := hr
  have hreach : s.follow k (s.follow j x) = r := by
    rw [← DSU.follow_add, Nat.add_comm, DSU.follow_add, hk,
      DSU.follow_fixed (DSU.link_of_isRoot hroot)]
  exact ⟨DSU.lt_of_follow_isRoot (k := k) (by rw [hreach]; exact hroot), hroot, k, hreach⟩

/-- The arrays after `FindAux`: the rank array is untouched, every vertex on
the path from `x` below the root points to the returned vertex, and every
other parent cell is as before. -/
theorem DSU.FindAux_shape (s : DSU) : ∀ (fuel x r : Nat) (t : DSU),
    DSU.FindAux fuel s x = some (r, t) →
    t.rank = s.rank ∧ t.parent.length = s.parent.length ∧
      (∀ i, s.onPath x i → t.parent[i]? = some r) ∧
      (∀ i, ¬ s.onPath x i → t.parent[i]? = s.parent[i]?) := by
  intro fuel
  induction fuel with
  | zero =>
    intro x r t h
    simp [DSU.FindAux] at h
  | succ fuel ih =>
    intro x r t h
    unfold DSU.FindAux at h
    cases hp : s.parent[x]? with
    | none => simp [hp] at h
    | some p =>
      simp only [hp] at h
      have hxlt : x < s.parent.length := by
        by_contra hge
        rw [List.getElem?_eq_none (by omega)] at hp
        cases hp
      by_cases hxp : x = p
      · simp only [hxp, if_true, Option.some.injEq, Prod.mk.injEq] at h
        obtain ⟨rfl, rfl⟩ := h
        have hroot : s.isRoot x := by rw [DSU.isRoot, hp, hxp]
        exact ⟨rfl, rfl, fun i hi => absurd hi (DSU.not_onPath_of_isRoot hroot), fun _ _ => rfl⟩
      · simp only [hxp, if_false] at h
        cases hrec : DSU.FindAux fuel s p with
        | none => simp [hrec] at h
        | some res =>
          obtain ⟨r1, t1⟩ := res
          simp only [hrec, Option.some.injEq, Prod.mk.injEq] at h
          obtain ⟨rfl, rfl⟩ := h
          obtain ⟨hrank, hlen, hon, hoff⟩ := ih p r1 t1 hrec
          have hnr : ¬ s.isRoot x := by
            intro hroot
            rw [DSU.isRoot, hp] at hroot
            exact hxp (Option.some.inj hroot).symm
          have hlink : s.link x = p := by simp [DSU.link, hp]
          refine ⟨hrank, by simp [hlen], fun i hi => ?_, fun i hi => ?_⟩
          · rw [DSU.onPath_step hnr, hlink] at hi
            by_cases hix : i = x
            · subst hix
              simp [List.getElem?_set, hlen, hxlt]
            · rcases hi with hi | hi
              · exact absurd hi hix
              · simp only [List.getElem?_set_ne (Ne.symm hix)]
                exact hon i hi
          · rw [DSU.onPath_step hnr, hlink] at hi
            have hix : i ≠ x := fun e => hi (Or.inl e)
            simp only [List.getElem?_set_ne (Ne.symm hix)]
            exact hoff i (fun h' => hi (Or.inr h'))

/-- `Find(x)` under the forest invariant, with the arrays it leaves. -/
theorem DSU.Find_shape {s : DSU} (hs : ForestInv s) {x : Nat} (hx : x < s.size) :
    ∃ r t, s.Find x = some (r, t) ∧ s.rootOf x r ∧ s.sameTrees t ∧ ForestInv t ∧
      (∀ i, s.onPath x i → t.parent[i]? = some r) ∧
      (∀ i, ¬ s.onPath x i → t.parent[i]? = s.parent[i]?) := by
  obtain ⟨r, t, hf, hr, ht, hi⟩ := DSU.Find_spec hs hx
  obtain ⟨_, _, hon, hoff⟩ := DSU.FindAux_shape s _ x r t hf
  exact ⟨r, t, hf, hr, ht, hi, hon, hoff⟩

/-! ## Sequences of calls -/

/-- Every sequence of calls with arguments in `[0, n)` runs to the end and
keeps the forest invariant. -/
theorem DSU.run_inv {n : Nat} : ∀ (ops : List Op) (s : DSU), ForestInv s → s.size = n →
    (∀ op ∈ ops, op.valid n) → ∃ t, s.run ops = some t ∧ ForestInv t ∧ t.size = n := by
  intro ops
  induction ops with
  | nil =>
    intro s hs hn _
    exact ⟨s, rfl, hs, hn⟩
  | cons op rest ih =>
    intro s hs hn hval
    have hop := hval op (List.mem_cons_self _ _)
    have hrest : ∀ op' ∈ rest, op'.valid n := fun op' h' => hval op' (List.mem_cons_of_mem _ h')
    cases op with
    | find x =>
      obtain ⟨r, t, hf, _, ht, hi⟩ := DSU.Find_spec hs (x := x) (by rw [hn]; exact hop)
      obtain ⟨u, hrun, hu, hun⟩ := ih t hi (ht.2.1.trans hn) hrest
      exact ⟨u, by simp [DSU.run, DSU.call, hf, hrun], hu, hun⟩
    | union x y =>
      obtain ⟨t, hU, hi, hsz, _⟩ := DSU.Union_spec hs (x := x) (y := y)
        (by rw [hn]; exact hop.1) (by rw [hn]; exact hop.2)
      obtain ⟨u, hrun, hu, hun⟩ := ih t hi (hsz.trans hn) hrest
      exact ⟨u, by simp [DSU.run, DSU.call, hU, hrun], hu, hun⟩

/-! ## The branches of `Union` -/

/-- `Union(x, y)` when the roots `rx`, `ry` and their ranks `kx`, `ky` are
known: the result is `unionResult` on a state with the same trees in which
both are still roots. -/
theorem DSU.Union_roots {s : DSU} (hs : ForestInv s) {x y rx ry kx ky : Nat}
    (hx : s.rootOf x rx) (hy : s.rootOf y ry) (hkx : s.rank[rx]? = some kx)
    (hky : s.rank[ry]? = some ky) :
    ∃ s2, s.sameTrees s2 ∧ s2.isRoot rx ∧ s2.isRoot ry ∧
      s.Union x y = some (DSU.unionResult s2 rx ry kx ky) := by
  obtain ⟨rx', ry', s2, kx', ky', hrx, hry, ht, _, hkx', hky', hU⟩ :=
    DSU.Union_eq hs hx.1 hy.1
  have e1 := DSU.rootOf_unique hrx hx
  have e2 := DSU.rootOf_unique hry hy
  subst e1
  subst e2
  rw [hkx] at hkx'
  rw [hky] at hky'
  cases hkx'
  cases hky'
  exact ⟨s2, ht, (ht.2.2.1 _).2 hx.2.1, (ht.2.2.1 _).2 hy.2.1, hU⟩

/-- Writing `parent[a] = b` for two different roots: `a` points to `b` and
`b` is still a root. -/
theorem DSU.parent_after_set {s2 : DSU} {a b : Nat} (ha : s2.isRoot a) (hb : s2.isRoot b)
    (hab : a ≠ b) :
    (s2.parent.set a b)[a]? = some b ∧ (s2.parent.set a b)[b]? = some b := by
  have halt : a < s2.parent.length := DSU.isRoot_lt ha
  refine ⟨by simp [List.getElem?_set, halt], ?_⟩
  rw [List.getElem?_set_ne hab]
  exact hb

/-- The vertex returned by `Find` is the root of its argument. -/
theorem DSU.rootOf_of_Find {s : DSU} (hs : ForestInv s) {x r : Nat} {t : DSU} (hx : x < s.size)
    (hf : s.Find x = some (r, t)) : s.rootOf x r := by
  obtain ⟨r', t', hf', hr, _⟩ := DSU.Find_spec hs hx
  rw [hf] at hf'
  cases hf'
  exact hr

/-! ## The output depends on the multiset of flattened edges only -/

/-- Edge lists with the same elements sort to the same list. -/
theorem sortEdges_eq_of_perm {l1 l2 : List Edge} (h : l1.Perm l2) :
    sortEdges l1 = sortEdges l2 :=
  List.eq_of_perm_of_sorted (r := edgeLe)
    ((sortEdges_perm l1).trans (h.trans (sortEdges_perm l2).symm))
    (List.sorted_insertionSort edgeLe l1) (List.sorted_insertionSort edgeLe l2)

theorem flatMap_update_perm {f g : Nat → List Edge} {i : Nat} {extra : List Edge}
    (hi : g i = f i ++ extra) (hne : ∀ u, u ≠ i → g u = f u) :
    ∀ l : List Nat, l.Nodup → i ∈ l → (l.flatMap g).Perm (l.flatMap f ++ extra) := by
  intro l
  induction l with
  | nil => intro _ h; cases h
  | cons h tl ih =>
    intro hnd hmem
    rw [List.nodup_cons] at hnd
    rw [List.flatMap_cons, List.flatMap_cons]
    by_cases hhi : h = i
    · subst hhi
      have htl : tl.flatMap g = tl.flatMap f :=
        List.flatMap_congr (fun u hu => hne u (fun e => hnd.1 (e ▸ hu)))
      rw [hi, htl, List.append_assoc, List.append_assoc]
      exact List.Perm.append_left _ List.perm_append_comm
    · have hmem' : i ∈ tl := by
        rcases List.mem_cons.1 hmem with e | e
        · exact absurd e.symm hhi
        · exact e
      rw [hne h hhi, List.append_assoc]
      exact List.Perm.append_left _ (ih hnd.2 hmem')

/-- One `push_back` adds one edge to the flattened list. -/
theorem inputEdges_pushAt {V : Nat} (adjList : AdjList) (i : Nat) (entry : Nat × Int)
    (hi : i < V) (hlen : V ≤ adjList.length) :
    (inputEdges V (pushAt adjList i entry)).Perm
      (inputEdges V adjList ++ [((entry.2, i, entry.1) : Edge)]) := by
  unfold inputEdges
  apply flatMap_update_perm (i := i) _ _ _ (List.nodup_range V) (List.mem_range.2 hi)
  · rw [rowEdges, rowEdges, pushAt_getD adjList i entry (by omega), if_pos rfl, List.map_append]
    rfl
  · intro u hu
    rw [rowEdges, rowEdges, pushAt_getD adjList i entry (by omega), if_neg hu]

/-- Reading well-formed edges adds to the flattened list each edge once per
endpoint. -/
theorem readEdges_perm (V : Nat) : ∀ (es : List (Nat × Nat × Int)) (adj0 : AdjList),
    (∀ t ∈ es, t.1 < V ∧ t.2.1 < V) → adj0.length = V →
    ∃ adjList, readEdges V (castInput es) adj0 = some adjList ∧ adjList.length = V ∧
      (inputEdges V adjList).Perm (inputEdges V adj0 ++ graphOf es) := by
  intro es
  induction es with
  | nil =>
    intro adj0 _ hlen
    exact ⟨adj0, rfl, hlen, by simp [graphOf]⟩
  | cons t rest ih =>
    intro adj0 hval hlen
    obtain ⟨hu, hv⟩ := hval t (List.mem_cons_self _ _)
    have hlen1 : (pushAt adj0 t.1 (t.2.1, t.2.2)).length = V := by
      rw [pushAt_length, hlen]
    have hlen2 : (pushAt (pushAt adj0 t.1 (t.2.1, t.2.2)) t.2.1 (t.1, t.2.2)).length = V := by
      rw [pushAt_length, hlen1]
    obtain ⟨adjList, hread, hl, hperm⟩ :=
      ih (pushAt (pushAt adj0 t.1 (t.2.1, t.2.2)) t.2.1 (t.1, t.2.2))
        (fun t' ht' => hval t' (List.mem_cons_of_mem _ ht')) hlen2
    refine ⟨adjList, ?_, hl, ?_⟩
    · simp only [castInput, List.map_cons, readEdges, inRange_cast, hu, hv, decide_True,
        if_true, Int.toNat_ofNat]
      exact hread
    · have p1 := inputEdges_pushAt (V := V) adj0 t.1 (t.2.1, t.2.2) hu (by omega)
      have p2 := inputEdges_pushAt (V := V) (pushAt adj0 t.1 (t.2.1, t.2.2)) t.2.1 (t.1, t.2.2)
        hv (by omega)
      have p3 := p2.trans (List.Perm.append_right _ p1)
      refine hperm.trans ((List.Perm.append_right _ p3).trans ?_)
      simp [graphOf, List.flatMap_cons, List.append_assoc]

theorem inputEdges_replicate (V : Nat) : inputEdges V (List.replicate V []) = [] := by
  unfold inputEdges
  rw [List.flatMap_eq_nil_iff]
  intro u _
  simp only [rowEdges, List.getD_eq_getElem?_getD, List.getElem?_replicate]
  split <;> rfl

/-- Exchanging endpoints and reordering edges does not change the multiset
of edges recorded once per endpoint. -/
theorem graphOf_sameGraph {es1 es2 : List (Nat × Nat × Int)} (h : SameGraph es1 es2) :
    (graphOf es1).Perm (graphOf es2) := by
  obtain ⟨mid, hmid, hperm⟩ := h
  refine List.Perm.trans ?_ (List.Perm.flatMap_right _ hperm)
  clear hperm
  induction hmid with
  | nil => exact List.Perm.refl _
  | @cons a b l1 l2 hab _ ih =>
    unfold graphOf at ih ⊢
    rw [List.flatMap_cons, List.flatMap_cons]
    refine List.Perm.append ?_ ih
    rcases hab with rfl | rfl
    · exact List.Perm.refl _
    · exact List.Perm.swap _ _ _

/-- `MST_kruskal` is determined by the sorted list of flattened edges. -/
theorem MST_kruskal_congr {V : Nat} {adj1 adj2 : AdjList} (h1 : V ≤ adj1.length)
    (h2 : V ≤ adj2.length) (hperm : (inputEdges V adj1).Perm (inputEdges V adj2)) :
    MST_kruskal V adj1 = MST_kruskal V adj2 := by
  simp only [MST_kruskal, flatten_eq h1, flatten_eq h2, sortEdges_eq_of_perm hperm]

/-! ## The claims -/

/-- C1. For every `V` and every valid input graph, the value accumulated in
`cost` is the weight of the accepted edges, the accepted edges are a spanning
forest of the input graph, and no spanning forest of the input graph weighs
less: `cost` is the minimum total weight over all spanning forests. -/
theorem MST_kruskal_cost_minimum (V : Nat) (adjList : AdjList) (h : ValidAdj V adjList) :
    ∃ accepted, MST_kruskal V adjList = some (accepted.map Edge.line, wsum accepted) ∧
      SpanningForest (inputEdges V adjList) accepted ∧
      ∀ F, SpanningForest (inputEdges V adjList) F → wsum accepted ≤ wsum F := by
  obtain ⟨accepted, _, hrun, hg, _⟩ := MST_kruskal_spec h
  exact ⟨accepted, hrun, spanningForest_of_greedy hg, fun F hF => greedy_minimal hg hF⟩

theorem MST_kruskal_cost_minimum_witness :
    ValidAdj 3 [[(1, 5), (2, 1)], [(0, 5), (2, -2)], [(0, 1), (1, -2)]] ∧
    ∃ accepted, MST_kruskal 3 [[(1, 5), (2, 1)], [(0, 5), (2, -2)], [(0, 1), (1, -2)]]
        = some (accepted.map Edge.line, wsum accepted) ∧
      SpanningForest (inputEdges 3 [[(1, 5), (2, 1)], [(0, 5), (2, -2)], [(0, 1), (1, -2)]])
        accepted ∧
      ∀ F, SpanningForest (inputEdges 3 [[(1, 5), (2, 1)], [(0, 5), (2, -2)], [(0, 1), (1, -2)]])
        F → wsum accepted ≤ wsum F :=
  ⟨by decide, MST_kruskal_cost_minimum 3 _ (by decide)⟩

/-- C2. For every valid input the accepted edges span the input graph: two
vertices are connected by a path of accepted edges if and only if they are
connected by a path of input edges; the accepted edges are a spanning forest
of the input graph, connected or not. -/
theorem MST_kruskal_spans (V : Nat) (adjList : AdjList) (h : ValidAdj V adjList) :
    ∃ accepted cost, MST_kruskal V adjList = some (accepted.map Edge.line, cost) ∧
      (∀ a b, Conn accepted a b ↔ Conn (inputEdges V adjList) a b) ∧
      SpanningForest (inputEdges V adjList) accepted := by
  obtain ⟨accepted, _, hrun, hg, _⟩ := MST_kruskal_spec h
  have hsf := spanningForest_of_greedy hg
  exact ⟨accepted, _, hrun, hsf.2.2, hsf⟩

theorem MST_kruskal_spans_witness :
    ValidAdj 4 [[(1, 7)], [(0, 7)], [(3, 2)], [(2, 2)]] ∧
    ∃ accepted cost, MST_kruskal 4 [[(1, 7)], [(0, 7)], [(3, 2)], [(2, 2)]]
        = some (accepted.map Edge.line, cost) ∧
      (∀ a b, Conn accepted a b ↔
        Conn (inputEdges 4 [[(1, 7)], [(0, 7)], [(3, 2)], [(2, 2)]]) a b) ∧
      SpanningForest (inputEdges 4 [[(1, 7)], [(0, 7)], [(3, 2)], [(2, 2)]]) accepted :=
  ⟨by decide, MST_kruskal_spans 4 _ (by decide)⟩

/-- C3. For every valid input, each accepted edge joins two vertices that no
path of previously accepted edges connects, and hence the accepted edges form
a forest (no cycle). -/
theorem MST_kruskal_forest (V : Nat) (adjList : AdjList) (h : ValidAdj V adjList) :
    ∃ accepted cost, MST_kruskal V adjList = some (accepted.map Edge.line, cost) ∧
      (∀ before e after, accepted = before ++ e :: after → ¬ Conn before e.u e.v) ∧
      IsForest accepted := by
  obtain ⟨accepted, _, hrun, hg, _⟩ := MST_kruskal_spec h
  refine ⟨accepted, _, hrun, ?_, isForest_of_greedy hg⟩
  intro before e after hsplit
  simpa using hg.fresh before e after hsplit

theorem MST_kruskal_forest_witness :
    ValidAdj 3 [[(1, 4), (2, 4)], [(0, 4), (2, 4)], [(0, 4), (1, 4)]] ∧
    ∃ accepted cost, MST_kruskal 3 [[(1, 4), (2, 4)], [(0, 4), (2, 4)], [(0, 4), (1, 4)]]
        = some (accepted.map Edge.line, cost) ∧
      (∀ before e after, accepted = before ++ e :: after → ¬ Conn before e.u e.v) ∧
      IsForest accepted :=
  ⟨by decide, MST_kruskal_forest 3 _ (by decide)⟩

/-- C4. For every `V >= 1` and every connected input graph on the vertices
`[0, V)`, the number of accepted (printed) edges is exactly `V - 1`. -/
theorem MST_kruskal_connected_count (V : Nat) (adjList : AdjList) (hV : 1 ≤ V)
    (h : ValidAdj V adjList)
    (hconn : ∀ a b, a < V → b < V → Conn (inputEdges V adjList) a b) :
    ∃ lines cost, MST_kruskal V adjList = some (lines, cost) ∧ lines.length = V - 1 := by
  obtain ⟨accepted, d, hrun, hg, _, hsz, hnum, hsame⟩ := MST_kruskal_spec h
  have hsf := spanningForest_of_greedy hg
  have hone : d.numRoots = 1 := by
    apply DSU.numRoots_eq_one (by omega)
    intro a b ha hb
    rw [hsz] at ha hb
    rw [hsame a b ha hb, hsf.2.2]
    exact hconn a b ha hb
  refine ⟨_, _, hrun, ?_⟩
  rw [List.length_map]
  omega

theorem MST_kruskal_connected_count_witness :
    1 ≤ 3 ∧ ValidAdj 3 [[(1, 5), (2, 1)], [(0, 5)], [(0, 1)]] ∧
    (∀ a b, a < 3 → b < 3 → Conn (inputEdges 3 [[(1, 5), (2, 1)], [(0, 5)], [(0, 1)]]) a b) ∧
    ∃ lines cost, MST_kruskal 3 [[(1, 5), (2, 1)], [(0, 5)], [(0, 1)]] = some (lines, cost) ∧
      lines.length = 3 - 1 := by
  have h0 : ∀ a, a < 3 → Conn (inputEdges 3 [[(1, 5), (2, 1)], [(0, 5)], [(0, 1)]]) 0 a := by
    intro a ha
    interval_cases a
    · exact Conn.refl 0
    · exact Conn.edge (e := (5, 0, 1)) (by decide)
    · exact Conn.edge (e := (1, 0, 2)) (by decide)
  have hc : ∀ a b, a < 3 → b < 3 →
      Conn (inputEdges 3 [[(1, 5), (2, 1)], [(0, 5)], [(0, 1)]]) a b :=
    fun a b ha hb => (h0 a ha).symm.trans (h0 b hb)
  exact ⟨by decide, by decide, hc, MST_kruskal_connected_count 3 _ (by decide) (by decide) hc⟩

/-- C5. For every state with the forest invariant and all `x`, `y` in
`[0, n)`: `Union(x, y)` returns; afterwards `Find(x)` and `Find(y)` give the
same representative (evaluated separately or one after the other); and two
vertices are in the same component afterwards exactly when they were before
or one was in the component of `x` and the other in that of `y`. -/
theorem Union_merges_components (s : DSU) (x y : Nat) (hs : ForestInv s) (hx : x < s.size)
    (hy : y < s.size) :
    ∃ t, s.Union x y = some t ∧
      (∃ r t1 t2 t3, t.Find x = some (r, t1) ∧ t.Find y = some (r, t2) ∧
        t1.Find y = some (r, t3)) ∧
      ∀ a b, t.same a b ↔
        (s.same a b ∨ (s.same a x ∧ s.same y b) ∨ (s.same a y ∧ s.same x b)) := by
  obtain ⟨t, hU, hinv, hsz, hsame, _⟩ := DSU.Union_spec hs hx hy
  refine ⟨t, hU, ?_, hsame⟩
  have hxy : t.same x y :=
    (hsame x y).2 (Or.inr (Or.inl ⟨DSU.same_refl hs hx, DSU.same_refl hs hy⟩))
  obtain ⟨r, t1, hf1, hr1, ht1, hi1⟩ := DSU.Find_spec hinv (hsz ▸ hx)
  obtain ⟨r2, t2, hf2, hr2, _, _⟩ := DSU.Find_spec hinv (hsz ▸ hy)
  obtain ⟨r3, t3, hf3, hr3, _, _⟩ := DSU.Find_spec hi1 (by rw [ht1.2.1, hsz]; exact hy)
  obtain ⟨r0, h1, h2⟩ := hxy
  have e1 : r = r0 := DSU.rootOf_unique hr1 h1
  have e2 : r2 = r0 := DSU.rootOf_unique hr2 h2
  have e3 : r3 = r0 := DSU.rootOf_unique ((ht1.2.2.2 _ _).1 hr3) h2
  subst e1
  subst e2
  subst e3
  exact ⟨_, t1, t2, t3, hf1, hf2, hf3⟩

theorem Union_merges_components_witness :
    ForestInv ⟨[1, 1, 3, 3, 4], [1, 2, 1, 2, 1]⟩ ∧
    0 < (DSU.mk [1, 1, 3, 3, 4] [1, 2, 1, 2, 1]).size ∧
    2 < (DSU.mk [1, 1, 3, 3, 4] [1, 2, 1, 2, 1]).size ∧
    ∃ t, (DSU.mk [1, 1, 3, 3, 4] [1, 2, 1, 2, 1]).Union 0 2 = some t ∧
      (∃ r t1 t2 t3, t.Find 0 = some (r, t1) ∧ t.Find 2 = some (r, t2) ∧
        t1.Find 2 = some (r, t3)) ∧
      ∀ a b, t.same a b ↔
        ((DSU.mk [1, 1, 3, 3, 4] [1, 2, 1, 2, 1]).same a b ∨
          ((DSU.mk [1, 1, 3, 3, 4] [1, 2, 1, 2, 1]).same a 0 ∧
            (DSU.mk [1, 1, 3, 3, 4] [1, 2, 1, 2, 1]).same 2 b) ∨
          ((DSU.mk [1, 1, 3, 3, 4] [1, 2, 1, 2, 1]).same a 2 ∧
            (DSU.mk [1, 1, 3, 3, 4] [1, 2, 1, 2, 1]).same 0 b)) :=
  ⟨forestInv_of_check (by decide), by decide, by decide,
    Union_merges_components _ 0 2 (forestInv_of_check (by decide)) (by decide) (by decide)⟩

/-- C6. For every state with the forest invariant and every `x` in `[0, n)`,
`Find(x)` returns a vertex `r` with `parent[r] == r` in the state before the
call, and `r` is the vertex reached by following parent links from `x`. -/
theorem Find_returns_root (s : DSU) (x : Nat) (hs : ForestInv s) (hx : x < s.size) :
    ∃ r t, s.Find x = some (r, t) ∧ s.parent[r]? = some r ∧ ∃ k, s.follow k x = r := by
  obtain ⟨r, t, hf, hr, _, _⟩ := DSU.Find_spec hs hx
  exact ⟨r, t, hf, hr.2.1, hr.2.2⟩

theorem Find_returns_root_witness :
    ForestInv ⟨[1, 2, 2, 0], [1, 1, 3, 1]⟩ ∧ 3 < (DSU.mk [1, 2, 2, 0] [1, 1, 3, 1]).size ∧
    ∃ r t, (DSU.mk [1, 2, 2, 0] [1, 1, 3, 1]).Find 3 = some (r, t) ∧
      (DSU.mk [1, 2, 2, 0] [1, 1, 3, 1]).parent[r]? = some r ∧
      ∃ k, (DSU.mk [1, 2, 2, 0] [1, 1, 3, 1]).follow k 3 = r :=
  ⟨forestInv_of_check (by decide), by decide,
    Find_returns_root _ 3 (forestInv_of_check (by decide)) (by decide)⟩

/-- C7. On `V = 4` with the edges `(0,1,1), (1,2,2), (2,3,3), (0,3,4)` the
program prints exactly the three lines `0 1 1`, `1 2 2`, `2 3 3` in this
order (the edge between 0 and 3 is not accepted) and `cost` ends as 6. -/
theorem main_scenario_path :
    main 4 [(0, 1, 1), (1, 2, 2), (2, 3, 3), (0, 3, 4)]
      = Outcome.finished [(0, 1, 1), (1, 2, 2), (2, 3, 3)] 6 := by
  decide

/-- C8 as stated fails: on `V = 3` with the edges `(0,1,5), (1,2,5), (0,2,5)`
the program does not accept `(0,1,5)` and then `(1,2,5)`. -/
theorem main_scenario_tie_not_as_stated :
    ¬ (main 3 [(0, 1, 5), (1, 2, 5), (0, 2, 5)]
        = Outcome.finished [(0, 1, 5), (1, 2, 5)] 10) ∧
    ¬ (∃ cost, main 3 [(0, 1, 5), (1, 2, 5), (0, 2, 5)]
        = Outcome.finished [(0, 1, 5), (2, 1, 5)] cost) := by
  have h : main 3 [(0, 1, 5), (1, 2, 5), (0, 2, 5)]
      = Outcome.finished [(0, 1, 5), (0, 2, 5)] 10 := by decide
  rw [h]
  constructor
  · decide
  · rintro ⟨cost, hc⟩
    injection hc with h1 _
    exact absurd h1 (by decide)

/-- C8, amended. On `V = 3` with the edges `(0,1,5), (1,2,5), (0,2,5)` the
program accepts exactly two edges, first `(0,1,5)` and then `(0,2,5)`, which
precedes `(1,2,5)` in the order of the triples `{w, u, v}`; the edge between
1 and 2 is rejected as a cycle; `cost` ends as 10. -/
theorem main_scenario_tie :
    main 3 [(0, 1, 5), (1, 2, 5), (0, 2, 5)]
      = Outcome.finished [(0, 1, 5), (0, 2, 5)] 10 := by
  decide

/-- C9. For every valid input, no printed line has equal endpoints, whatever
the weight (negative weights included), and `cost` is the sum of the weights
of the printed lines, so no weight of a self-loop enters it. -/
theorem MST_kruskal_no_self_loop (V : Nat) (adjList : AdjList) (h : ValidAdj V adjList) :
    ∃ lines cost, MST_kruskal V adjList = some (lines, cost) ∧
      (∀ u w, (u, u, w) ∉ lines) ∧ cost = (lines.map (fun l => l.2.2)).sum := by
  obtain ⟨accepted, _, hrun, hg, _⟩ := MST_kruskal_spec h
  refine ⟨_, _, hrun, ?_, ?_⟩
  · intro u w hmem
    rw [List.mem_map] at hmem
    obtain ⟨e, he, hline⟩ := hmem
    obtain ⟨before, after, rfl⟩ := List.append_of_mem he
    have hfresh := hg.fresh before e after rfl
    simp only [Edge.line, Prod.mk.injEq] at hline
    apply hfresh
    rw [hline.1, hline.2.1]
    exact Conn.refl u
  · simp [wsum, Edge.line, Function.comp_def]

theorem MST_kruskal_no_self_loop_witness :
    ValidAdj 2 [[(0, -3), (0, -3), (1, 4)], [(0, 4), (1, -9), (1, -9)]] ∧
    ∃ lines cost,
      MST_kruskal 2 [[(0, -3), (0, -3), (1, 4)], [(0, 4), (1, -9), (1, -9)]]
        = some (lines, cost) ∧
      (∀ u w, (u, u, w) ∉ lines) ∧ cost = (lines.map (fun l => l.2.2)).sum :=
  ⟨by decide, MST_kruskal_no_self_loop 2 _ (by decide)⟩

/-- C10 as stated fails: with `V = 2` and the edge `(0, 5, 1)`, whose endpoint
5 is outside `[0, 2)`, the program is not refused with an input-format error:
line 71 indexes `adjList[5]` outside the vector. -/
theorem main_out_of_range_not_rejected :
    main 2 [(0, 5, 1)] ≠ Outcome.rejected ∧
    main 2 [(0, 5, 1)] = Outcome.undefinedWhileReading := by
  decide

/-- C10, amended. For every input in which some edge has an endpoint outside
`[0, V)`, the program makes no check of its own: reading the edges it indexes
`adjList` outside the vector (undefined behaviour), which happens before
`MST_kruskal` is entered, so before the `DSU` is initialised and before any
line is printed. -/
theorem main_out_of_range (V : Nat) (input : List (Int × Int × Int))
    (h : ∃ e ∈ input, inRange V e.1 = false ∨ inRange V e.2.1 = false) :
    main V input = Outcome.undefinedWhileReading := by
  unfold main
  rw [readEdges_out_of_range V input _ h]

theorem main_out_of_range_witness :
    (∃ e ∈ [((0 : Int), (1 : Int), (3 : Int)), (1, -1, 4)],
      inRange 2 e.1 = false ∨ inRange 2 e.2.1 = false) ∧
    main 2 [(0, 1, 3), (1, -1, 4)] = Outcome.undefinedWhileReading :=
  ⟨⟨(1, -1, 4), by decide, by decide⟩,
    main_out_of_range 2 [(0, 1, 3), (1, -1, 4)] ⟨(1, -1, 4), by decide, by decide⟩⟩

/-- C11. For every state with the forest invariant and every `x` in `[0, n)`,
two calls of `Find(x)` in a row return the same representative, and `Find(x)`
changes the representative of no vertex: every vertex has the same root, and
`Find(y)` returns the same vertex, before and after. -/
theorem Find_idempotent (s : DSU) (x : Nat) (hs : ForestInv s) (hx : x < s.size) :
    ∃ r t t', s.Find x = some (r, t) ∧ t.Find x = some (r, t') ∧
      (∀ y ry, t.rootOf y ry ↔ s.rootOf y ry) ∧
      ∀ y, y < s.size → ∃ ry u u', s.Find y = some (ry, u) ∧ t.Find y = some (ry, u') := by
  obtain ⟨r, t, hf, hr, ht, hi⟩ := DSU.Find_spec hs hx
  obtain ⟨r', t', hf', hr', _, _⟩ := DSU.Find_spec hi (x := x) (by rw [ht.2.1]; exact hx)
  have e : r' = r := DSU.rootOf_unique ((ht.2.2.2 _ _).1 hr') hr
  subst e
  refine ⟨r', t, t', hf, hf', ht.2.2.2, fun y hy => ?_⟩
  obtain ⟨ry, u, hfy, hry, _, _⟩ := DSU.Find_spec hs hy
  obtain ⟨ry', u', hfy', hry', _, _⟩ := DSU.Find_spec hi (x := y) (by rw [ht.2.1]; exact hy)
  have e : ry' = ry := DSU.rootOf_unique ((ht.2.2.2 _ _).1 hry') hry
  subst e
  exact ⟨ry', u, u', hfy, hfy'⟩

theorem Find_idempotent_witness :
    ForestInv ⟨[1, 2, 2, 0], [1, 1, 3, 1]⟩ ∧ 3 < (DSU.mk [1, 2, 2, 0] [1, 1, 3, 1]).size ∧
    ∃ r t t', (DSU.mk [1, 2, 2, 0] [1, 1, 3, 1]).Find 3 = some (r, t) ∧
      t.Find 3 = some (r, t') ∧
      (∀ y ry, t.rootOf y ry ↔ (DSU.mk [1, 2, 2, 0] [1, 1, 3, 1]).rootOf y ry) ∧
      ∀ y, y < (DSU.mk [1, 2, 2, 0] [1, 1, 3, 1]).size → ∃ ry u u',
        (DSU.mk [1, 2, 2, 0] [1, 1, 3, 1]).Find y = some (ry, u) ∧ t.Find y = some (ry, u') :=
  ⟨forestInv_of_check (by decide), by decide,
    Find_idempotent _ 3 (forestInv_of_check (by decide)) (by decide)⟩

/-- C12 as stated fails: in the state `parent = [1, 2, 2]`, `rank = [1, 1, 1]`
(reached from `DSU(3)` by `Union(0, 1)`, `Union(1, 2)`) the vertices 0 and 2
have the same root 2, and `Union(0, 2)` changes `parent[0]` from 1 to 2. -/
theorem Union_same_root_not_noop :
    (DSU.new 3).run [Op.union 0 1, Op.union 1 2] = some ⟨[1, 2, 2], [1, 1, 1]⟩ ∧
    ForestInv ⟨[1, 2, 2], [1, 1, 1]⟩ ∧
    (DSU.mk [1, 2, 2] [1, 1, 1]).same 0 2 ∧
    (DSU.mk [1, 2, 2] [1, 1, 1]).Union 0 2 = some ⟨[2, 2, 2], [1, 1, 1]⟩ ∧
    (DSU.mk [1, 2, 2] [1, 1, 1]).Union 0 2 ≠ some ⟨[1, 2, 2], [1, 1, 1]⟩ :=
  ⟨by decide, forestInv_of_check (by decide),
    ⟨2, ⟨by decide, by decide, 2, by decide⟩, ⟨by decide, by decide, 0, by decide⟩⟩,
    by decide, by decide⟩

/-- C12, amended. For every state with the forest invariant and all `x`, `y`
in `[0, n)` that are in the same component, `Union(x, y)` merges nothing: it
returns the state left by `Find(x)` followed by `Find(y)`; the rank array, the
roots and the root of every vertex are as before; and every parent cell is
either as before or holds the root of its vertex (path compression). -/
theorem Union_same_root (s : DSU) (x y : Nat) (hs : ForestInv s) (hx : x < s.size)
    (hy : y < s.size) (hxy : s.same x y) :
    ∃ r s1 s2, s.Find x = some (r, s1) ∧ s1.Find y = some (r, s2) ∧ s.Union x y = some s2 ∧
      s2.rank = s.rank ∧ s2.size = s.size ∧ (∀ i, s2.isRoot i ↔ s.isRoot i) ∧
      (∀ v rv, s2.rootOf v rv ↔ s.rootOf v rv) ∧
      (∀ i p, s2.parent[i]? = some p → s.parent[i]? = some p ∨ s.rootOf i p) := by
  obtain ⟨r, s1, hf1, hr, ht1, hi1, hon1, hoff1⟩ := DSU.Find_shape hs hx
  obtain ⟨r2, s2, hf2, hr2, ht2, _, hon2, hoff2⟩ :=
    DSU.Find_shape hi1 (x := y) (by rw [ht1.2.1]; exact hy)
  have e : r2 = r := by
    obtain ⟨r0, h1, h2⟩ := hxy
    exact (DSU.rootOf_unique ((ht1.2.2.2 _ _).1 hr2) h2).trans (DSU.rootOf_unique h1 hr)
  subst e
  have ht := DSU.sameTrees_trans ht1 ht2
  refine ⟨r2, s1, s2, hf1, hf2, ?_, ht.1, ht.2.1, ht.2.2.1, ht.2.2.2, fun i p hp => ?_⟩
  · simp [DSU.Union, hf1, hf2]
  · by_cases h2 : s1.onPath y i
    · rw [hon2 i h2] at hp
      cases hp
      exact Or.inr ((ht1.2.2.2 _ _).1 (DSU.rootOf_of_onPath hr2 h2))
    · rw [hoff2 i h2] at hp
      by_cases h1 : s.onPath x i
      · rw [hon1 i h1] at hp
        cases hp
        exact Or.inr (DSU.rootOf_of_onPath hr h1)
      · rw [hoff1 i h1] at hp
        exact Or.inl hp

theorem Union_same_root_witness :
    ForestInv ⟨[1, 2, 2, 2], [1, 1, 2, 1]⟩ ∧ 0 < (DSU.mk [1, 2, 2, 2] [1, 1, 2, 1]).size ∧
    3 < (DSU.mk [1, 2, 2, 2] [1, 1, 2, 1]).size ∧
    (DSU.mk [1, 2, 2, 2] [1, 1, 2, 1]).same 0 3 ∧
    ∃ r s1 s2, (DSU.mk [1, 2, 2, 2] [1, 1, 2, 1]).Find 0 = some (r, s1) ∧
      s1.Find 3 = some (r, s2) ∧ (DSU.mk [1, 2, 2, 2] [1, 1, 2, 1]).Union 0 3 = some s2 ∧
      s2.rank = (DSU.mk [1, 2, 2, 2] [1, 1, 2, 1]).rank ∧
      s2.size = (DSU.mk [1, 2, 2, 2] [1, 1, 2, 1]).size ∧
      (∀ i, s2.isRoot i ↔ (DSU.mk [1, 2, 2, 2] [1, 1, 2, 1]).isRoot i) ∧
      (∀ v rv, s2.rootOf v rv ↔ (DSU.mk [1, 2, 2, 2] [1, 1, 2, 1]).rootOf v rv) ∧
      (∀ i p, s2.parent[i]? = some p →
        (DSU.mk [1, 2, 2, 2] [1, 1, 2, 1]).parent[i]? = some p ∨
          (DSU.mk [1, 2, 2, 2] [1, 1, 2, 1]).rootOf i p) :=
  ⟨forestInv_of_check (by decide), by decide, by decide,
    ⟨2, ⟨by decide, by decide, 2, by decide⟩, ⟨by decide, by decide, 1, by decide⟩⟩,
    Union_same_root _ 0 3 (forestInv_of_check (by decide)) (by decide) (by decide)
      ⟨2, ⟨by decide, by decide, 2, by decide⟩, ⟨by decide, by decide, 1, by decide⟩⟩⟩

/-- C13. Path compression: for every state with the forest invariant and every
`x` in `[0, n)`, after `Find(x)` every vertex on the parent path from `x` below
its root `r` has parent `r`, the parent of every other vertex is unchanged,
and the rank array is unchanged. -/
theorem Find_compresses_path (s : DSU) (x : Nat) (hs : ForestInv s) (hx : x < s.size) :
    ∃ r t, s.Find x = some (r, t) ∧ s.rootOf x r ∧
      (∀ i, s.onPath x i → t.parent[i]? = some r) ∧
      (∀ i, ¬ s.onPath x i → t.parent[i]? = s.parent[i]?) ∧ t.rank = s.rank := by
  obtain ⟨r, t, hf, hr, ht, _, hon, hoff⟩ := DSU.Find_shape hs hx
  exact ⟨r, t, hf, hr, hon, hoff, ht.1⟩

theorem Find_compresses_path_witness :
    ForestInv ⟨[1, 2, 3, 3, 3], [1, 1, 1, 4, 1]⟩ ∧
    0 < (DSU.mk [1, 2, 3, 3, 3] [1, 1, 1, 4, 1]).size ∧
    ∃ r t, (DSU.mk [1, 2, 3, 3, 3] [1, 1, 1, 4, 1]).Find 0 = some (r, t) ∧
      (DSU.mk [1, 2, 3, 3, 3] [1, 1, 1, 4, 1]).rootOf 0 r ∧
      (∀ i, (DSU.mk [1, 2, 3, 3, 3] [1, 1, 1, 4, 1]).onPath 0 i → t.parent[i]? = some r) ∧
      (∀ i, ¬ (DSU.mk [1, 2, 3, 3, 3] [1, 1, 1, 4, 1]).onPath 0 i →
        t.parent[i]? = (DSU.mk [1, 2, 3, 3, 3] [1, 1, 1, 4, 1]).parent[i]?) ∧
      t.rank = (DSU.mk [1, 2, 3, 3, 3] [1, 1, 1, 4, 1]).rank :=
  ⟨forestInv_of_check (by decide), by decide,
    Find_compresses_path _ 0 (forestInv_of_check (by decide)) (by decide)⟩

/-- C14. Every sequence of `Find` and `Union` calls with arguments in `[0, n)`
on `DSU(n)` runs to the end, and the state reached has every `parent[i]` in
`[0, n)` and a root at the end of the parent links of every vertex; on it
`Find` returns for every vertex (it terminates and stays inside the arrays). -/
theorem reachable_forest (n : Nat) (ops : List Op) (h : ∀ op ∈ ops, op.valid n) :
    ∃ s, (DSU.new n).run ops = some s ∧ s.size = n ∧
      (∀ i, i < n → ∃ p, s.parent[i]? = some p ∧ p < n) ∧
      (∀ i, i < n → ∃ k, s.isRoot (s.follow k i)) ∧
      (∀ x, x < n → ∃ r t, s.Find x = some (r, t)) := by
  obtain ⟨s, hrun, hs, hn⟩ := DSU.run_inv ops (DSU.new n) (DSU.new_inv n) (DSU.new_size n) h
  refine ⟨s, hrun, hn, fun i hi => ?_, fun i hi => ?_, fun x hx => ?_⟩
  · exact ⟨s.link i, DSU.parent_eq_link (hn ▸ hi), hn ▸ hs.2.1 i (hn ▸ hi)⟩
  · exact hs.2.2 i (hn ▸ hi)
  · obtain ⟨r, t, hf, _⟩ := DSU.Find_spec hs (x := x) (hn ▸ hx)
    exact ⟨r, t, hf⟩

theorem reachable_forest_witness :
    (∀ op ∈ [Op.union 0 1, Op.find 0, Op.union 3 2, Op.union 1 2, Op.find 0], op.valid 4) ∧
    ∃ s, (DSU.new 4).run [Op.union 0 1, Op.find 0, Op.union 3 2, Op.union 1 2, Op.find 0]
        = some s ∧ s.size = 4 ∧
      (∀ i, i < 4 → ∃ p, s.parent[i]? = some p ∧ p < 4) ∧
      (∀ i, i < 4 → ∃ k, s.isRoot (s.follow k i)) ∧
      (∀ x, x < 4 → ∃ r t, s.Find x = some (r, t)) :=
  ⟨by decide, reachable_forest 4 _ (by decide)⟩

/-- C15. Union by rank: for every state with the forest invariant and all `x`,
`y` whose roots `rx = Find(x)` and `ry = Find(y)` are different and have
different ranks, after `Union(x, y)` the root with the strictly greater rank is
the parent of the other root and is itself still a root. -/
theorem Union_by_rank (s : DSU) (x y rx ry kx ky : Nat) (sx sy : DSU) (hs : ForestInv s)
    (hx : x < s.size) (hy : y < s.size) (hfx : s.Find x = some (rx, sx))
    (hfy : s.Find y = some (ry, sy)) (hne : rx ≠ ry) (hkx : s.rank[rx]? = some kx)
    (hky : s.rank[ry]? = some ky) (hk : kx ≠ ky) :
    ∃ t big small, s.Union x y = some t ∧
      ((ky < kx ∧ big = rx ∧ small = ry) ∨ (kx < ky ∧ big = ry ∧ small = rx)) ∧
      t.parent[small]? = some big ∧ t.parent[big]? = some big := by
  obtain ⟨s2, _, hrx2, hry2, hU⟩ := DSU.Union_roots hs (DSU.rootOf_of_Find hs hx hfx)
    (DSU.rootOf_of_Find hs hy hfy) hkx hky
  rcases Nat.lt_or_gt_of_ne hk with hlt | hlt
  · refine ⟨_, ry, rx, hU, Or.inr ⟨hlt, rfl, rfl⟩, ?_⟩
    have hnot : ¬ kx > ky := by omega
    have : (DSU.unionResult s2 rx ry kx ky).parent = s2.parent.set rx ry := by
      unfold DSU.unionResult
      rw [if_neg hne, if_neg hnot]
      split <;> rfl
    rw [this]
    exact DSU.parent_after_set hrx2 hry2 hne
  · refine ⟨_, rx, ry, hU, Or.inl ⟨hlt, rfl, rfl⟩, ?_⟩
    have : DSU.unionResult s2 rx ry kx ky = { s2 with parent := s2.parent.set ry rx } := by
      simp [DSU.unionResult, hne, hlt]
    rw [this]
    exact DSU.parent_after_set hry2 hrx2 (Ne.symm hne)

theorem Union_by_rank_witness :
    ForestInv ⟨[0, 0, 2, 2, 2], [2, 1, 3, 1, 1]⟩ ∧
    1 < (DSU.mk [0, 0, 2, 2, 2] [2, 1, 3, 1, 1]).size ∧
    3 < (DSU.mk [0, 0, 2, 2, 2] [2, 1, 3, 1, 1]).size ∧
    (DSU.mk [0, 0, 2, 2, 2] [2, 1, 3, 1, 1]).Find 1
      = some (0, ⟨[0, 0, 2, 2, 2], [2, 1, 3, 1, 1]⟩) ∧
    (DSU.mk [0, 0, 2, 2, 2] [2, 1, 3, 1, 1]).Find 3
      = some (2, ⟨[0, 0, 2, 2, 2], [2, 1, 3, 1, 1]⟩) ∧
    (0 : Nat) ≠ 2 ∧
    (DSU.mk [0, 0, 2, 2, 2] [2, 1, 3, 1, 1]).rank[0]? = some 2 ∧
    (DSU.mk [0, 0, 2, 2, 2] [2, 1, 3, 1, 1]).rank[2]? = some 3 ∧ (2 : Nat) ≠ 3 ∧
    ∃ t big small, (DSU.mk [0, 0, 2, 2, 2] [2, 1, 3, 1, 1]).Union 1 3 = some t ∧
      ((3 < 2 ∧ big = 0 ∧ small = 2) ∨ (2 < 3 ∧ big = 2 ∧ small = 0)) ∧
      t.parent[small]? = some big ∧ t.parent[big]? = some big :=
  ⟨forestInv_of_check (by decide), by decide, by decide, by decide, by decide, by decide,
    by decide, by decide, by decide,
    Union_by_rank _ 1 3 0 2 2 3 ⟨[0, 0, 2, 2, 2], [2, 1, 3, 1, 1]⟩
      ⟨[0, 0, 2, 2, 2], [2, 1, 3, 1, 1]⟩ (forestInv_of_check (by decide)) (by decide)
      (by decide) (by decide) (by decide) (by decide) (by decide) (by decide) (by decide)⟩

/-- C16 as stated fails: on `DSU(2)` the roots of 1 and 0 are 1 and 0, both of
rank 1, and after `Union(1, 0)` the root with the smaller id, 0, is not
attached under the root with the larger id: `parent[0]` is 0 and `parent[1]`
is 0. -/
theorem Union_tie_direction_not_by_id :
    ForestInv (DSU.new 2) ∧
    (DSU.new 2).Find 1 = some (1, DSU.new 2) ∧ (DSU.new 2).Find 0 = some (0, DSU.new 2) ∧
    (DSU.new 2).rank[1]? = (DSU.new 2).rank[0]? ∧
    ∃ t, (DSU.new 2).Union 1 0 = some t ∧ t.parent[0]? ≠ some 1 ∧ t.parent[0]? = some 0 ∧
      t.parent[1]? = some 0 :=
  ⟨DSU.new_inv 2, by decide, by decide, by decide, ⟨[0, 0], [2, 1]⟩, by decide, by decide,
    by decide, by decide⟩

/-- C16, amended. For every state with the forest invariant and all `x`, `y`
whose roots are different and have equal rank, after `Union(x, y)` the root of
the first argument `x` is attached under (has as parent) the root of the second
argument `y`, which stays a root, whichever of the two ids is smaller. -/
theorem Union_tie_direction (s : DSU) (x y rx ry k : Nat) (sx sy : DSU) (hs : ForestInv s)
    (hx : x < s.size) (hy : y < s.size) (hfx : s.Find x = some (rx, sx))
    (hfy : s.Find y = some (ry, sy)) (hne : rx ≠ ry) (hkx : s.rank[rx]? = some k)
    (hky : s.rank[ry]? = some k) :
    ∃ t, s.Union x y = some t ∧ t.parent[rx]? = some ry ∧ t.parent[ry]? = some ry := by
  obtain ⟨s2, _, hrx2, hry2, hU⟩ := DSU.Union_roots hs (DSU.rootOf_of_Find hs hx hfx)
    (DSU.rootOf_of_Find hs hy hfy) hkx hky
  refine ⟨_, hU, ?_⟩
  have : (DSU.unionResult s2 rx ry k k).parent = s2.parent.set rx ry := by
    unfold DSU.unionResult
    rw [if_neg hne, if_neg (Nat.lt_irrefl k)]
    split <;> rfl
  rw [this]
  exact DSU.parent_after_set hrx2 hry2 hne

theorem Union_tie_direction_witness :
    ForestInv ⟨[0, 1, 1, 3], [1, 2, 1, 2]⟩ ∧
    3 < (DSU.mk [0, 1, 1, 3] [1, 2, 1, 2]).size ∧
    2 < (DSU.mk [0, 1, 1, 3] [1, 2, 1, 2]).size ∧
    (DSU.mk [0, 1, 1, 3] [1, 2, 1, 2]).Find 3 = some (3, ⟨[0, 1, 1, 3], [1, 2, 1, 2]⟩) ∧
    (DSU.mk [0, 1, 1, 3] [1, 2, 1, 2]).Find 2 = some (1, ⟨[0, 1, 1, 3], [1, 2, 1, 2]⟩) ∧
    (3 : Nat) ≠ 1 ∧
    (DSU.mk [0, 1, 1, 3] [1, 2, 1, 2]).rank[3]? = some 2 ∧
    (DSU.mk [0, 1, 1, 3] [1, 2, 1, 2]).rank[1]? = some 2 ∧
    ∃ t, (DSU.mk [0, 1, 1, 3] [1, 2, 1, 2]).Union 3 2 = some t ∧
      t.parent[3]? = some 1 ∧ t.parent[1]? = some 1 :=
  ⟨forestInv_of_check (by decide), by decide, by decide, by decide, by decide, by decide,
    by decide, by decide,
    Union_tie_direction _ 3 2 3 1 2 ⟨[0, 1, 1, 3], [1, 2, 1, 2]⟩ ⟨[0, 1, 1, 3], [1, 2, 1, 2]⟩
      (forestInv_of_check (by decide)) (by decide) (by decide) (by decide) (by decide)
      (by decide) (by decide) (by decide)⟩

/-- C17 on the code: on `DSU(2)` the roots 0 and 1 are different and both have
rank 1; `Union(0, 1)` takes the branch of line 29 (`parent[x_parent] <
parent[y_parent]`), hangs 0 under 1 and leaves `rank[1]` at 1 instead of 2.
With the arguments exchanged the branch of lines 32-35 is taken and the rank of
the absorbing root does grow to 2. -/
theorem Union_tie_rank_on_code :
    ForestInv (DSU.new 2) ∧
    (DSU.new 2).Find 0 = some (0, DSU.new 2) ∧ (DSU.new 2).Find 1 = some (1, DSU.new 2) ∧
    (DSU.new 2).rank[0]? = some 1 ∧ (DSU.new 2).rank[1]? = some 1 ∧
    (DSU.new 2).Union 0 1 = some ⟨[1, 1], [1, 1]⟩ ∧
    (DSU.new 2).Union 1 0 = some ⟨[0, 0], [2, 1]⟩ :=
  ⟨DSU.new_inv 2, by decide, by decide, by decide, by decide, by decide, by decide⟩

/-- C18 on the code: `DSU(3)` followed by `Union(0, 1)`, `Union(1, 2)` reaches
`parent = [1, 2, 2]`, `rank = [1, 1, 1]`: vertex 2 is a root of rank 1, and
vertex 0 is two parent links below it (one link leads to 1, which is not a
root). -/
theorem rank_below_depth_on_code :
    ∃ s, (DSU.new 3).run [Op.union 0 1, Op.union 1 2] = some s ∧
      s.isRoot 2 ∧ s.rank[2]? = some 1 ∧
      s.follow 1 0 = 1 ∧ ¬ s.isRoot 1 ∧ s.follow 2 0 = 2 ∧ 1 < 2 :=
  ⟨⟨[1, 2, 2], [1, 1, 1]⟩, by decide, by decide, by decide, by decide, by decide, by decide,
    by decide⟩

/-- C19 on the code: `DSU(4)` followed by `Union(0, 1)`, `Union(1, 2)`,
`Union(2, 3)` reaches the chain `parent = [1, 2, 3, 3]`: vertex 0 is three
parent links below its root 3 (after two links it is at 2, not a root), while
`floor(log2(4))` is 2. -/
theorem depth_above_log_on_code :
    ∃ s, (DSU.new 4).run [Op.union 0 1, Op.union 1 2, Op.union 2 3] = some s ∧
      s.isRoot 3 ∧ s.follow 3 0 = 3 ∧ s.follow 2 0 = 2 ∧ ¬ s.isRoot 2 ∧
      ¬ s.isRoot (s.follow 1 0) ∧ ¬ s.isRoot 0 ∧ Nat.log 2 4 = 2 ∧ Nat.log 2 4 < 3 :=
  ⟨⟨[1, 2, 3, 3], [1, 1, 1, 1]⟩, by decide, by decide, by decide, by decide, by decide,
    by decide, by decide, by simp [Nat.log], by simp [Nat.log]⟩

/-- C20. For every `V` and any two valid edge lists that are equal up to
reordering the edges and exchanging the two endpoints of any edges, the
program ends normally on both with the identical sequence of printed lines and
the identical `cost`. -/
theorem main_same_graph (V : Nat) (es1 es2 : List (Nat × Nat × Int))
    (h1 : ∀ t ∈ es1, t.1 < V ∧ t.2.1 < V) (h2 : ∀ t ∈ es2, t.1 < V ∧ t.2.1 < V)
    (h : SameGraph es1 es2) :
    ∃ lines cost, main V (castInput es1) = Outcome.finished lines cost ∧
      main V (castInput es2) = Outcome.finished lines cost := by
  obtain ⟨adj1, hr1, hl1, hp1⟩ := readEdges_perm V es1 (List.replicate V []) h1 (by simp)
  obtain ⟨adj2, hr2, hl2, hp2⟩ := readEdges_perm V es2 (List.replicate V []) h2 (by simp)
  rw [inputEdges_replicate, List.nil_append] at hp1 hp2
  have hperm : (inputEdges V adj1).Perm (inputEdges V adj2) :=
    hp1.trans ((graphOf_sameGraph h).trans hp2.symm)
  have hK := MST_kruskal_congr (by omega) (by omega) hperm
  obtain ⟨adj1', hvalid, _, hmain⟩ := main_valid V es1 h1
  obtain ⟨accepted, _, hrun, _⟩ := MST_kruskal_spec hvalid
  have hm1 := hmain _ _ hrun
  have hrun1 : MST_kruskal V adj1 = some (accepted.map Edge.line, wsum accepted) := by
    have := hm1
    simp only [main, hr1] at this
    cases hk : MST_kruskal V adj1 with
    | none => simp [hk] at this
    | some res =>
      obtain ⟨l, c⟩ := res
      simp only [hk, Outcome.finished.injEq] at this
      rw [this.1, this.2]
  refine ⟨_, _, hm1, ?_⟩
  simp [main, hr2, ← hK, hrun1]

theorem main_same_graph_witness :
    (∀ t ∈ [((0 : Nat), (1 : Nat), (5 : Int)), (1, 2, 3), (0, 2, 5)], t.1 < 3 ∧ t.2.1 < 3) ∧
    (∀ t ∈ [((2 : Nat), (1 : Nat), (3 : Int)), (2, 0, 5), (0, 1, 5)], t.1 < 3 ∧ t.2.1 < 3) ∧
    SameGraph [(0, 1, 5), (1, 2, 3), (0, 2, 5)] [(2, 1, 3), (2, 0, 5), (0, 1, 5)] ∧
    ∃ lines cost,
      main 3 (castInput [(0, 1, 5), (1, 2, 3), (0, 2, 5)]) = Outcome.finished lines cost ∧
      main 3 (castInput [(2, 1, 3), (2, 0, 5), (0, 1, 5)]) = Outcome.finished lines cost := by
  have hg : SameGraph [(0, 1, 5), (1, 2, 3), (0, 2, 5)] [(2, 1, 3), (2, 0, 5), (0, 1, 5)] :=
    ⟨[(0, 1, 5), (2, 1, 3), (2, 0, 5)],
      List.Forall₂.cons (Or.inl rfl) (List.Forall₂.cons (Or.inr rfl)
        (List.Forall₂.cons (Or.inr rfl) List.Forall₂.nil)),
      @List.perm_append_comm _ [(0, 1, 5)] [(2, 1, 3), (2, 0, 5)]⟩
  exact ⟨by decide, by decide, hg, main_same_graph 3 _ _ (by decide) (by decide) hg⟩

end Kruskal
